import Mathlib

/-!
Verification of the service/event-routing core of a simplified fixed-income
trading system (pricing, market data, algorithmic execution and streaming,
position and risk aggregation).

The embedding translates the C++ sources directly:

* prices and PV01 sensitivities (`double` in the source, always produced by
  exact dyadic arithmetic at 1/256 resolution) are modelled as `ℚ`;
* quantities (`long`) are modelled as `ℤ`, counters as `ℕ`;
* `std::map<K, V>` / `std::unordered_map<K, V>` are modelled as association
  lists (`List (K × V)`).  The C++ containers iterate in key order
  (respectively, in unspecified order); every statement proved below observes
  a map only through key lookups and order-independent sums, never through
  the entry order, so the association-list entry order is irrelevant;
* a C++ method that mutates its object is modelled as a function from the
  service state to the new service state; the payloads passed to
  `ProcessAdd` of the registered listeners are returned alongside the state;
* a thrown exception (`std::invalid_argument`) is modelled by an explicit
  error component in the result.
-/

namespace TradingSystem

/-- Lookup in an association list modelling `std::map::find` /
`std::unordered_map::find`: the first binding of the key, if any. -/
def lookupKey {K V : Type} [DecidableEq K] : List (K × V) → K → Option V
  | [], _ => none
  | e :: rest, k => if e.1 = k then some e.2 else lookupKey rest k

/-- Lookup with a default value, modelling reading `m[k]` when the ensuing
insertion of the default is irrelevant or handled separately. -/
def getKeyD {K V : Type} [DecidableEq K] (m : List (K × V)) (k : K) (d : V) : V :=
  (lookupKey m k).getD d

/-- Assignment `m[k] = v`, modelling `std::map` insert-or-assign: replaces the
binding of `k` if present, otherwise appends a new binding. -/
def setKey {K V : Type} [DecidableEq K] : List (K × V) → K → V → List (K × V)
  | [], k, v => [(k, v)]
  | e :: rest, k, v => if e.1 = k then (k, v) :: rest else e :: setKey rest k v

/-- Accumulation `m[k] += q` into an integer-valued map, modelling
`std::map<K, long>::operator[]` (which value-initialises an absent entry
to `0`) followed by `+=`. -/
def addKey {K : Type} [DecidableEq K] : List (K × ℤ) → K → ℤ → List (K × ℤ)
  | [], k, q => [(k, q)]
  | e :: rest, k, q => if e.1 = k then (e.1, e.2 + q) :: rest else e :: addKey rest k q

/-- Keyed read through `std::map::operator[]`: returns the stored value if the
key is present; otherwise value-initialises a fresh entry, stores it, and
returns it.  The second component is the map after the access. -/
def mapIndex {V : Type} (m : List (String × V)) (k : String) (dflt : V) :
    V × List (String × V) :=
  match lookupKey m k with
  | some v => (v, m)
  | none => (dflt, m ++ [(k, dflt)])

/-- Side of a market-data order (`enum PricingSide` in marketdataservice.hpp). -/
inductive PricingSide
  | BID
  | OFFER
deriving DecidableEq, Repr

/-- A market-data order: price, quantity, side (class `Order` in
marketdataservice.hpp). -/
structure Order where
  price : ℚ
  quantity : ℤ
  side : PricingSide
deriving DecidableEq, Repr

/-- Default `Order`.  `Order bestBid;` in `GetBestBidOffer` default-initialises
the members; it is only ever returned for an empty stack, a case the theorems
below exclude, so the concrete default values are never relied upon. -/
instance : Inhabited Order :=
  ⟨{ price := 0, quantity := 0, side := PricingSide.BID }⟩

/-- A bid/offer pair of orders (class `BidOffer` in marketdataservice.hpp). -/
structure BidOffer where
  bidOrder : Order
  offerOrder : Order
deriving DecidableEq, Repr

/-- Per-product order book: bid stack and offer stack (class `OrderBook<T>` in
marketdataservice.hpp).  The product type parameter `T` is instantiated with
the product identifier, the only product attribute the verified operations
read (`GetProductId`). -/
structure OrderBook where
  product : String
  bidStack : List Order
  offerStack : List Order
deriving DecidableEq, Repr

instance : Inhabited OrderBook :=
  ⟨{ product := "", bidStack := [], offerStack := [] }⟩

/-- The bid-stack scan of `OrderBook<T>::GetBestBidOffer`: keep the current
best order and replace it whenever a strictly greater price appears
(`if (px > bestBidPrice)`).  The C++ loop seeds the running best price with
`numeric_limits<double>::lowest()`, so the first order always replaces the
seed; the scan here therefore starts from the first order of the stack. -/
def bestBidScan : Order → List Order → Order
  | best, [] => best
  | best, o :: rest => if best.price < o.price then bestBidScan o rest else bestBidScan best rest

/-- The offer-stack scan of `OrderBook<T>::GetBestBidOffer`: keep the current
best order and replace it whenever a strictly smaller price appears
(`if (px < bestOfferPrice)`), seeded with `numeric_limits<double>::max()`. -/
def bestOfferScan : Order → List Order → Order
  | best, [] => best
  | best, o :: rest => if o.price < best.price then bestOfferScan o rest else bestOfferScan best rest

/-- `OrderBook<T>::GetBestBidOffer` (marketdataservice.hpp): scan the bid
stack for the maximum price and the offer stack for the minimum price, ties
broken in favour of the earlier order. -/
def OrderBook.GetBestBidOffer (ob : OrderBook) : BidOffer :=
  { bidOrder :=
      match ob.bidStack with
      | [] => default
      | o :: rest => bestBidScan o rest
  , offerOrder :=
      match ob.offerStack with
      | [] => default
      | o :: rest => bestOfferScan o rest }

/-- The order book of spec §8.3's best-bid-offer example: bid stack
`[(99.50,10),(99.75,20)]`, offer stack `[(100.00,15),(99.90,5)]`. -/
def exampleBook : OrderBook :=
  { product := "91282CLY5"
  , bidStack :=
      [ { price := 199/2, quantity := 10, side := PricingSide.BID }
      , { price := 399/4, quantity := 20, side := PricingSide.BID } ]
  , offerStack :=
      [ { price := 100, quantity := 15, side := PricingSide.OFFER }
      , { price := 999/10, quantity := 5, side := PricingSide.OFFER } ] }

/-- Order kinds (`enum OrderType` in algoexecutionservice.hpp). -/
inductive OrderType
  | FOK
  | IOC
  | MARKET
  | LIMIT
  | STOP
deriving DecidableEq, Repr

/-- An execution order to be sent to an exchange (class `ExecutionOrder<T>` in
algoexecutionservice.hpp).  The C++ class declares `visibleQuantity` and
`hiddenQuantity` as `double` but both are constructed from and read back as
`long`; they are modelled as `ℤ`. -/
structure ExecutionOrder where
  product : String
  side : PricingSide
  orderId : String
  orderType : OrderType
  price : ℚ
  visibleQuantity : ℤ
  hiddenQuantity : ℤ
  parentOrderId : String
  isChildOrder : Bool
deriving DecidableEq, Repr

/-- `AlgoExecution<T>` wraps (a pointer to) exactly one `ExecutionOrder<T>`
and exposes it through `RetrieveExecutionOrder`; it is modelled as the order
itself. -/
abbrev AlgoExecution := ExecutionOrder

/-- State of `AlgoExecutionService<T>`: execution-spread threshold, the
engine-wide execution counter, and the map from product id to the latest
algo execution. -/
structure AlgoExecutionServiceState where
  executionSpread : ℚ
  executionCount : ℕ
  algoExecutionMap : List (String × AlgoExecution)
deriving DecidableEq, Repr

/-- The `AlgoExecutionService()` constructor: threshold `1.0 / 128.0`,
counter `0`, empty map. -/
def initAlgoExecutionService : AlgoExecutionServiceState :=
  { executionSpread := 1/128, executionCount := 0, algoExecutionMap := [] }

/-- `AlgoExecutionService<T>::ExecuteOrder` (algoexecutionservice.hpp).
`GenerateUniqueId()` draws a fresh random 12-character id; the drawn id is
passed in as `uniqueOrderId` (its randomness and uniqueness are not
modelled).  The second component is the execution passed to each listener's
`ProcessAdd`, `none` when the spread condition fails and nothing is emitted
or stored. -/
def AlgoExecutionService.ExecuteOrder (s : AlgoExecutionServiceState)
    (currentOrderBook : OrderBook) (uniqueOrderId : String) :
    AlgoExecutionServiceState × Option AlgoExecution :=
  let optimalBidOffer := currentOrderBook.GetBestBidOffer
  let highestBid := optimalBidOffer.bidOrder
  let lowestOffer := optimalBidOffer.offerOrder
  if lowestOffer.price - highestBid.price ≤ s.executionSpread then
    let selectedSide : PricingSide :=
      if s.executionCount % 2 = 0 then PricingSide.BID else PricingSide.OFFER
    let determinedPrice : ℚ :=
      if s.executionCount % 2 = 0 then highestBid.price else lowestOffer.price
    let determinedQuantity : ℤ :=
      if s.executionCount % 2 = 0 then highestBid.quantity else lowestOffer.quantity
    let executionInstance : AlgoExecution :=
      { product := currentOrderBook.product
      , side := selectedSide
      , orderId := uniqueOrderId
      , orderType := OrderType.MARKET
      , price := determinedPrice
      , visibleQuantity := determinedQuantity
      , hiddenQuantity := 0
      , parentOrderId := ""
      , isChildOrder := false }
    ({ s with
        executionCount := s.executionCount + 1
      , algoExecutionMap := setKey s.algoExecutionMap currentOrderBook.product executionInstance }
    , some executionInstance)
  else
    (s, none)

/-- An internal price: product, mid, bid/offer spread (class `Price<T>` in
pricingservice.hpp). -/
structure Price where
  product : String
  mid : ℚ
  bidOfferSpread : ℚ
deriving DecidableEq, Repr

/-- Value-initialised `Price<T>` inserted by `std::map::operator[]` for an
absent key (zero-initialised members). -/
def defaultPrice : Price := { product := "", mid := 0, bidOfferSpread := 0 }

/-- One side of a streamed two-way quote (class `PriceStreamOrder` in
algostreamingservice.hpp). -/
structure PriceStreamOrder where
  price : ℚ
  visibleQuantity : ℤ
  hiddenQuantity : ℤ
  side : PricingSide
deriving DecidableEq, Repr

/-- A two-way price stream (class `PriceStream<T>` in
algostreamingservice.hpp). -/
structure PriceStream where
  product : String
  bidOrder : PriceStreamOrder
  offerOrder : PriceStreamOrder
deriving DecidableEq, Repr

/-- `AlgoStream<T>` wraps (a pointer to) exactly one `PriceStream<T>`;
modelled as the stream itself. -/
abbrev AlgoStream := PriceStream

/-- State of `AlgoStreamingService<T>`: the engine-wide order counter and the
map from product id to the latest algo stream. -/
structure AlgoStreamingServiceState where
  orderCounter : ℕ
  algoStreamMap : List (String × AlgoStream)
deriving DecidableEq, Repr

/-- `AlgoStreamingService<T>::PublishAlgorithmicPrice`
(algostreamingservice.hpp): derive a two-sided quote from a `Price` and emit
it unconditionally.  The second component is the stream passed to each
listener's `ProcessAdd`. -/
def AlgoStreamingService.PublishAlgorithmicPrice (s : AlgoStreamingServiceState)
    (price : Price) : AlgoStreamingServiceState × AlgoStream :=
  let bidPrice := price.mid - price.bidOfferSpread / 2
  let offerPrice := price.mid + price.bidOfferSpread / 2
  let visibleQty : ℤ := ((s.orderCounter % 2 : ℕ) + 1 : ℕ) * 10000000
  let hiddenQty : ℤ := visibleQty * 2
  let bidOrder : PriceStreamOrder :=
    { price := bidPrice, visibleQuantity := visibleQty, hiddenQuantity := hiddenQty
    , side := PricingSide.BID }
  let offerOrder : PriceStreamOrder :=
    { price := offerPrice, visibleQuantity := visibleQty, hiddenQuantity := hiddenQty
    , side := PricingSide.OFFER }
  let algoStream : AlgoStream :=
    { product := price.product, bidOrder := bidOrder, offerOrder := offerOrder }
  ({ orderCounter := s.orderCounter + 1
   , algoStreamMap := setKey s.algoStreamMap price.product algoStream }
  , algoStream)

/-- Trade side (`enum Side` declared in tradebookingservice.hpp). -/
inductive Side
  | BUY
  | SELL
deriving DecidableEq, Repr

/-- Trade record (class `Trade<T>`, declared in tradebookingservice.hpp which
is not among the provided sources; reconstructed from the accessors
`GetProduct`, `GetPrice`, `GetBook`, `GetQuantity`, `GetSide` used by
`PositionService<T>::AddTrade` and from the spec ingress format
`productId, tradeId, priceStr, book, quantity, side`). -/
structure Trade where
  product : String
  tradeId : String
  price : ℚ
  book : String
  quantity : ℤ
  side : Side
deriving DecidableEq, Repr

/-- A product's positions across books (class `Position<T>` in
positionservice.hpp): map from book name to signed net quantity. -/
structure Position where
  product : String
  positions : List (String × ℤ)
deriving DecidableEq, Repr

/-- `Position<T>::AddPosition`: `positions[_book] += _position`. -/
def Position.AddPosition (pos : Position) (book : String) (position : ℤ) : Position :=
  { pos with positions := addKey pos.positions book position }

/-- `Position<T>::GetAggregatePosition`: sum of the per-book quantities. -/
def Position.GetAggregatePosition (pos : Position) : ℤ :=
  (pos.positions.map Prod.snd).sum

/-- Value-initialised `Position<T>` produced by `std::map::operator[]` for an
absent product id: empty product id, no book entries. -/
def emptyPosition : Position := { product := "", positions := [] }

/-- Signed quantity of a trade: positive for BUY, negative for SELL (the two
`switch` branches of `PositionService<T>::AddTrade`). -/
def signedQuantity (t : Trade) : ℤ :=
  match t.side with
  | Side.BUY => t.quantity
  | Side.SELL => -t.quantity

/-- State of `PositionService<T>`: map from product id to its `Position`. -/
structure PositionServiceState where
  positions : List (String × Position)
deriving DecidableEq, Repr

/-- `PositionService<T>::AddTrade` (positionservice.hpp): build a fresh
`Position` holding the trade's signed quantity in the trade's book, fold in
every book of the previously stored `Position` (absent product id: the
value-initialised empty position), store the result under the product id,
and notify every listener with it.  The second component is the position
passed to each listener's `ProcessAdd`. -/
def PositionService.AddTrade (s : PositionServiceState) (t : Trade) :
    PositionServiceState × Position :=
  let positionTo0 : Position := { product := t.product, positions := [] }
  let positionTo1 : Position :=
    match t.side with
    | Side.BUY => positionTo0.AddPosition t.book t.quantity
    | Side.SELL => positionTo0.AddPosition t.book (-t.quantity)
  let positionFrom : Position := getKeyD s.positions t.product emptyPosition
  let positionTo : Position :=
    positionFrom.positions.foldl (fun acc e => acc.AddPosition e.1 e.2) positionTo1
  ({ positions := setKey s.positions t.product positionTo }, positionTo)

/-- Replay a list of trades through `AddTrade` starting from an empty
position store. -/
def replayTrades (trades : List Trade) : PositionServiceState :=
  trades.foldl (fun s t => (PositionService.AddTrade s t).1) { positions := [] }

/-- PV01 risk for a product (class `PV01<T>` in riskservice.hpp). -/
structure PV01 (P : Type) where
  product : P
  pv01 : ℚ
  quantity : ℤ
deriving DecidableEq, Repr

/-- Value-initialised `PV01<T>` produced by `std::map::operator[]` for an
absent key (zero-initialised members). -/
def defaultPV01 : PV01 String := { product := "", pv01 := 0, quantity := 0 }

/-- `PV01Info` (funcs.hpp): the static CUSIP → PV01-per-unit reference table.
The C++ function throws `std::invalid_argument("Unknown CUSIP")` for a CUSIP
outside the table; the throw is modelled as `none`.  The `double` literals
are carried as exact decimals. -/
def PV01Info (cusip : String) : Option ℚ :=
  if cusip = "91282CLY5" then some (1854/10000)
  else if cusip = "91282CMB4" then some (2738/10000)
  else if cusip = "91282CMA6" then some (4389/10000)
  else if cusip = "91282CLZ2" then some (5911/10000)
  else if cusip = "91282CLW9" then some (7910/10000)
  else if cusip = "912810UF3" then some (12829/10000)
  else if cusip = "912810UE6" then some (15956/10000)
  else none

/-- A named bucket of products (class `BucketedSector<T>` in
riskservice.hpp). -/
structure BucketedSector where
  products : List String
  name : String
deriving DecidableEq, Repr

/-- State of `RiskService<T>`: map from product id to its latest `PV01`. -/
structure RiskServiceState where
  pv01s : List (String × PV01 String)
deriving DecidableEq, Repr

/-- `RiskService<T>::AddPosition` (riskservice.hpp): look up the static PV01
for the product (the lookup throws for an unknown product id, before any
mutation), store a `PV01` carrying the position's aggregate quantity, and
notify every listener.  Result components: new state, the
`PV01` passed to each listener's `ProcessAdd` (`none` when the lookup
throws), and the propagated error (`none` on success). -/
def RiskService.AddPosition (s : RiskServiceState) (position : Position) :
    RiskServiceState × Option (PV01 String) × Option String :=
  match PV01Info position.product with
  | none => (s, none, some "Unknown CUSIP")
  | some v =>
    let pv01 : PV01 String :=
      { product := position.product, pv01 := v, quantity := position.GetAggregatePosition }
    ({ pv01s := setKey s.pv01s position.product pv01 }, some pv01, none)

/-- `RiskService<T>::GetBucketedRisk` (riskservice.hpp): accumulate, over the
sector's products, last-stored PV01 value × last-stored quantity (reading
through `pv01s[_pId]`, which value-initialises absent entries to zero), and
return it with the fixed sentinel quantity `1`. -/
def RiskService.GetBucketedRisk (s : RiskServiceState) (sector : BucketedSector) :
    PV01 BucketedSector :=
  { product := sector
  , pv01 := sector.products.foldl
      (fun acc pId =>
        acc + (getKeyD s.pv01s pId defaultPV01).pv01
            * ((getKeyD s.pv01s pId defaultPV01).quantity : ℚ)) 0
  , quantity := 1 }

/-- `RiskService<T>::GetData`: `return pv01s[_key];` — a read through
`std::map::operator[]`, which inserts a value-initialised entry for an
absent key. -/
def RiskService.GetData (s : RiskServiceState) (key : String) :
    PV01 String × RiskServiceState :=
  ((mapIndex s.pv01s key defaultPV01).1, { pv01s := (mapIndex s.pv01s key defaultPV01).2 })

/-- State of `PricingService<T>`: map from product id to its latest `Price`. -/
structure PricingServiceState where
  priceData : List (String × Price)
deriving DecidableEq, Repr

/-- `PricingService<T>::GetData`: `return priceData[key];` — a read through
`std::map::operator[]`, which inserts a value-initialised entry for an
absent key. -/
def PricingService.GetData (s : PricingServiceState) (key : String) :
    Price × PricingServiceState :=
  ((mapIndex s.priceData key defaultPrice).1, { priceData := (mapIndex s.priceData key defaultPrice).2 })

/-- Value-initialised `OrderBook<T>` inserted by `std::map::operator[]` for
an absent key: empty product id and empty stacks. -/
def defaultOrderBook : OrderBook := { product := "", bidStack := [], offerStack := [] }

/-- State of `BondMarketDataService<T>`: map from product id to its order
book, plus the configured book depth (5 in the constructor). -/
structure BondMarketDataServiceState where
  orderBooks : List (String × OrderBook)
  bookDepth : ℤ
deriving DecidableEq, Repr

/-- `BondMarketDataService<T>::GetData`: `return orderBooks[_key];` — a read
through `std::map::operator[]`, which inserts a value-initialised entry for
an absent key. -/
def BondMarketDataService.GetData (s : BondMarketDataServiceState) (key : String) :
    OrderBook × BondMarketDataServiceState :=
  ((mapIndex s.orderBooks key defaultOrderBook).1
  , { s with orderBooks := (mapIndex s.orderBooks key defaultOrderBook).2 })

/-- The `aggregateStack` lambda of `BondMarketDataService<T>::AggregateDepth`:
`priceQuantityMap[order.GetPrice()] += order.GetQuantity()` over the stack,
then one order per stored (price, quantity) pair with the given side.  The
C++ groups in a `std::unordered_map<double, long>` whose iteration order is
unspecified; the grouped entries are kept here in first-occurrence order,
and every property proved about the result is order-independent. -/
def aggregateStack (stack : List Order) (side : PricingSide) : List Order :=
  (stack.foldl (fun m o => addKey m o.price o.quantity) []).map
    (fun e => { price := e.1, quantity := e.2, side := side })

/-- `BondMarketDataService<T>::AggregateDepth` (marketdataservice.hpp):
aggregate the stored order book's bid and offer stacks by price.  The stored
book is read through `orderBooks[productId]`. -/
def BondMarketDataService.AggregateDepth (s : BondMarketDataServiceState)
    (productId : String) : OrderBook × BondMarketDataServiceState :=
  let a := mapIndex s.orderBooks productId defaultOrderBook
  ({ product := a.1.product
   , bidStack := aggregateStack a.1.bidStack PricingSide.BID
   , offerStack := aggregateStack a.1.offerStack PricingSide.OFFER }
  , { s with orderBooks := a.2 })

/-- Total quantity the input stack carries at one price: the sum of the
quantities of the stack's orders at exactly that price. -/
def sumQuantityAt (stack : List Order) (p : ℚ) : ℤ :=
  ((stack.filter fun o => decide (o.price = p)).map Order.quantity).sum

/-- What claim C4 requires of an aggregated stack, read as a set: one order
per distinct input price carrying the summed quantity, side preserved. -/
def aggregatedSpec (out input : List Order) (side : PricingSide) : Prop :=
  (out.map Order.price).Nodup
  ∧ (∀ p : ℚ, p ∈ out.map Order.price ↔ p ∈ input.map Order.price)
  ∧ ∀ o ∈ out, o.side = side ∧ o.quantity = sumQuantityAt input o.price

/-- Decimal digit character: `'0' + d`. -/
def digitChar (d : ℕ) : Char := Char.ofNat (48 + d)

/-- Numeric value of a digit character, as read by `std::stod` on the
digit-only buckets `ParsePrice` builds. -/
def charVal (c : Char) : ℕ := c.toNat - 48

/-- Value of a digit string (the behaviour of `std::stod` on the digit-only
strings arising in `ParsePrice`; an empty bucket is read as `0.0` by the
`empty() ? 0.0 : stod(...)` guards). -/
def digitsToNat (cs : List Char) : ℕ := cs.foldl (fun n c => n * 10 + charVal c) 0

/-- A digit bucket of `ParsePrice` as a number (`empty() ? 0.0 : stod(...)`). -/
def stodVal (cs : List Char) : ℚ := (digitsToNat cs : ℚ)

/-- The character loop of `ParsePrice` (funcs.hpp): each `'-'` increments
`dashCount`; with `dashCount == 0` a character goes to the whole part; with
`0 < dashCount < 3` it goes to the 32nds part and increments `dashCount`;
with `dashCount == 3` it goes to the eighths part, `'+'` rewritten to `'4'`;
any later character is dropped. -/
def parseLoop : List Char → ℕ → List Char → List Char → List Char →
    List Char × List Char × List Char
  | [], _, w, a, b => (w, a, b)
  | c :: rest, dash, w, a, b =>
    if c = '-' then parseLoop rest (dash + 1) w a b
    else if dash = 0 then parseLoop rest dash (w ++ [c]) a b
    else if dash < 3 then parseLoop rest (dash + 1) w (a ++ [c]) b
    else if dash = 3 then parseLoop rest dash w a (b ++ [if c = '+' then '4' else c])
    else parseLoop rest dash w a b

/-- `ParsePrice` (funcs.hpp): split the string into whole / 32nds / eighths
buckets and combine `whole + val32/32 + val8/256`. -/
def ParsePrice (inputPrice : String) : ℚ :=
  let parts := parseLoop inputPrice.data 0 [] [] []
  stodVal parts.1 + stodVal parts.2.1 / 32 + stodVal parts.2.2 / 256

/-- Fuelled canonical decimal rendering of a natural number (enough fuel
always supplied by `natDigits`); structural so that concrete strings
evaluate by kernel reduction. -/
def natDigitsAux : ℕ → ℕ → List Char
  | 0, _ => []
  | fuel + 1, n => if n < 10 then [digitChar n] else natDigitsAux fuel (n / 10) ++ [digitChar (n % 10)]

/-- Canonical decimal rendering of a natural number, as produced by
`std::ostringstream <<` and `std::to_string` on non-negative values. -/
def natDigits (n : ℕ) : List Char := natDigitsAux (n + 1) n

/-- Canonical decimal rendering of an integer (`operator<<(ostream, int)`). -/
def intChars (i : ℤ) : List Char :=
  if i < 0 then '-' :: natDigits i.natAbs else natDigits i.toNat

/-- `FormatPrice` (funcs.hpp): split a price into integer part, 32nds and
eighths (flooring at 1/256), zero-pad the 32nds to two digits, render the
eighth `4` as `'+'`.  `fraction * 256` is non-negative because `fraction` is
`price` minus its floor, so the `static_cast<int>` is modelled by `toNat`. -/
def FormatPrice (price : ℚ) : String :=
  let integerPart : ℤ := ⌊price⌋
  let fraction : ℚ := price - (integerPart : ℚ)
  let fraction256 : ℕ := (⌊fraction * 256⌋).toNat
  let fraction32 : ℕ := fraction256 / 8
  let fraction8 : ℕ := fraction256 % 8
  let oss32 : List Char := (if fraction32 < 10 then ['0'] else []) ++ natDigits fraction32
  let part8 : List Char := if fraction8 = 4 then ['+'] else natDigits fraction8
  String.mk (intChars integerPart ++ '-' :: (oss32 ++ part8))

/-- Canonical W-FFE character rendering of `w + f32/32 + f8/256`, exactly as
assembled by `FormatPrice`: canonical decimal `W`, two-digit `FF`, eighth
`4` written `'+'`. -/
def priceChars (w f32 f8 : ℕ) : List Char :=
  natDigits w ++ '-' ::
    (((if f32 < 10 then ['0'] else []) ++ natDigits f32)
      ++ (if f8 = 4 then ['+'] else natDigits f8))

/-- Canonical W-FFE price string. -/
def priceString (w f32 f8 : ℕ) : String := String.mk (priceChars w f32 f8)

/-- Well-formedness of a W-FFE price string exactly as claim C2 words it:
`W` the integer part (canonical decimal), `FF` a zero-padded two-digit value
in 00–31, and the eighths character `E` a digit 0–7 or `'+'` (meaning 4/8). -/
def ClaimWellFormed (s : String) : Prop :=
  ∃ w f32 : ℕ, ∃ e : Char,
    f32 ≤ 31
  ∧ (e = '+' ∨ ∃ d : ℕ, d ≤ 7 ∧ e = digitChar d)
  ∧ s = String.mk (natDigits w ++ '-' :: (((if f32 < 10 then ['0'] else []) ++ natDigits f32) ++ [e]))

/-- A concrete stored position state for exercising `AddTrade`. -/
def examplePositionState : PositionServiceState :=
  { positions :=
      [ ("91282CLY5",
          { product := "91282CLY5"
          , positions := [("TRSY1", 5000000), ("TRSY2", 300)] }) ] }

/-- A concrete BUY trade on the stored product. -/
def exampleTrade : Trade :=
  { product := "91282CLY5", tradeId := "TRADE0000001", price := 100
  , book := "TRSY1", quantity := 1000000, side := Side.BUY }

/-- A concrete two-trade sequence on one product (one BUY, one SELL). -/
def exampleTrades : List Trade :=
  [ { product := "91282CLY5", tradeId := "TRADE0000001", price := 100
    , book := "TRSY1", quantity := 10, side := Side.BUY }
  , { product := "91282CLY5", tradeId := "TRADE0000002", price := 100
    , book := "TRSY2", quantity := 3, side := Side.SELL } ]

/-- A position on a product id outside the PV01 reference table. -/
def unknownPosition : Position :=
  { product := "FOO123456", positions := [("TRSY1", 100)] }

/-- A position on a product id inside the PV01 reference table. -/
def knownPosition : Position :=
  { product := "91282CLY5", positions := [("TRSY1", 100)] }

/-- A stored order book with duplicate price levels, extending spec §8.4's
depth-aggregation example `[(99.5,10),(99.5,5),(99.75,20)]`. -/
def exampleDepthBook : OrderBook :=
  { product := "91282CLY5"
  , bidStack :=
      [ { price := 199/2, quantity := 10, side := PricingSide.BID }
      , { price := 199/2, quantity := 5, side := PricingSide.BID }
      , { price := 399/4, quantity := 20, side := PricingSide.BID } ]
  , offerStack :=
      [ { price := 100, quantity := 15, side := PricingSide.OFFER }
      , { price := 100, quantity := 5, side := PricingSide.OFFER } ] }

/-- A market-data service state storing `exampleDepthBook`. -/
def exampleMDState : BondMarketDataServiceState :=
  { orderBooks := [("91282CLY5", exampleDepthBook)], bookDepth := 5 }

end TradingSystem




namespace TradingSystem

theorem lookupKey_nil {K V : Type} [DecidableEq K] (k : K) :
    lookupKey ([] : List (K × V)) k = none := rfl

theorem lookupKey_cons {K V : Type} [DecidableEq K] (e : K × V) (rest : List (K × V)) (k : K) :
    lookupKey (e :: rest) k = if e.1 = k then some e.2 else lookupKey rest k := rfl

/-- Characterisation of the bid scan: either the seed is already maximal and
is returned unchanged, or the scan returns an element of the list that is
strictly better than the seed, maximal over the list, and preceded only by
strictly worse elements (first-encountered tie-breaking). -/
theorem bestBidScan_spec (l : List Order) :
    ∀ best : Order,
      (bestBidScan best l = best ∧ ∀ o ∈ l, o.price ≤ best.price)
    ∨ ∃ i : ℕ, ∃ hi : i < l.length,
        bestBidScan best l = l.get ⟨i, hi⟩
      ∧ best.price < (l.get ⟨i, hi⟩).price
      ∧ (∀ o ∈ l, o.price ≤ (l.get ⟨i, hi⟩).price)
      ∧ ∀ o ∈ l.take i, o.price < (l.get ⟨i, hi⟩).price := by
  induction l with
  | nil =>
    intro best
    exact Or.inl ⟨rfl, by simp⟩
  | cons o rest ih =>
    intro best
    by_cases hc : best.price < o.price
    · rw [show bestBidScan best (o :: rest) = bestBidScan o rest by
        simp [bestBidScan, hc]]
      rcases ih o with ⟨heq, hall⟩ | ⟨i, hi, heq, hlt, hall, hfirst⟩
      · refine Or.inr ⟨0, by simp, by simpa using heq, by simpa using hc, ?_, by simp⟩
        intro x hx
        rcases List.mem_cons.mp hx with h | h
        · simp [h]
        · simpa using hall x h
      · refine Or.inr ⟨i + 1, by simpa using Nat.succ_lt_succ hi, by simpa using heq,
          lt_trans hc (by simpa using hlt), ?_, ?_⟩
        · intro x hx
          rcases List.mem_cons.mp hx with h | h
          · subst h
            exact le_of_lt (by simpa using hlt)
          · simpa using hall x h
        · intro x hx
          rcases List.mem_cons.mp (by simpa using hx) with h | h
          · subst h
            simpa using hlt
          · simpa using hfirst x h
    · push_neg at hc
      rw [show bestBidScan best (o :: rest) = bestBidScan best rest by
        simp [bestBidScan, not_lt.mpr hc]]
      rcases ih best with ⟨heq, hall⟩ | ⟨i, hi, heq, hlt, hall, hfirst⟩
      · refine Or.inl ⟨heq, ?_⟩
        intro x hx
        rcases List.mem_cons.mp hx with h | h
        · simpa [h] using hc
        · exact hall x h
      · refine Or.inr ⟨i + 1, by simpa using Nat.succ_lt_succ hi, by simpa using heq,
          by simpa using hlt, ?_, ?_⟩
        · intro x hx
          rcases List.mem_cons.mp hx with h | h
          · subst h
            exact le_of_lt (lt_of_le_of_lt hc (by simpa using hlt))
          · simpa using hall x h
        · intro x hx
          rcases List.mem_cons.mp (by simpa using hx) with h | h
          · subst h
            exact lt_of_le_of_lt hc (by simpa using hlt)
          · simpa using hfirst x h

/-- Characterisation of the offer scan, dual to `bestBidScan_spec`. -/
theorem bestOfferScan_spec (l : List Order) :
    ∀ best : Order,
      (bestOfferScan best l = best ∧ ∀ o ∈ l, best.price ≤ o.price)
    ∨ ∃ i : ℕ, ∃ hi : i < l.length,
        bestOfferScan best l = l.get ⟨i, hi⟩
      ∧ (l.get ⟨i, hi⟩).price < best.price
      ∧ (∀ o ∈ l, (l.get ⟨i, hi⟩).price ≤ o.price)
      ∧ ∀ o ∈ l.take i, (l.get ⟨i, hi⟩).price < o.price := by
  induction l with
  | nil =>
    intro best
    exact Or.inl ⟨rfl, by simp⟩
  | cons o rest ih =>
    intro best
    by_cases hc : o.price < best.price
    · rw [show bestOfferScan best (o :: rest) = bestOfferScan o rest by
        simp [bestOfferScan, hc]]
      rcases ih o with ⟨heq, hall⟩ | ⟨i, hi, heq, hlt, hall, hfirst⟩
      · refine Or.inr ⟨0, by simp, by simpa using heq, by simpa using hc, ?_, by simp⟩
        intro x hx
        rcases List.mem_cons.mp hx with h | h
        · simp [h]
        · simpa using hall x h
      · refine Or.inr ⟨i + 1, by simpa using Nat.succ_lt_succ hi, by simpa using heq,
          lt_trans (by simpa using hlt) hc, ?_, ?_⟩
        · intro x hx
          rcases List.mem_cons.mp hx with h | h
          · subst h
            exact le_of_lt (by simpa using hlt)
          · simpa using hall x h
        · intro x hx
          rcases List.mem_cons.mp (by simpa using hx) with h | h
          · subst h
            simpa using hlt
          · simpa using hfirst x h
    · push_neg at hc
      rw [show bestOfferScan best (o :: rest) = bestOfferScan best rest by
        simp [bestOfferScan, not_lt.mpr hc]]
      rcases ih best with ⟨heq, hall⟩ | ⟨i, hi, heq, hlt, hall, hfirst⟩
      · refine Or.inl ⟨heq, ?_⟩
        intro x hx
        rcases List.mem_cons.mp hx with h | h
        · simpa [h] using hc
        · exact hall x h
      · refine Or.inr ⟨i + 1, by simpa using Nat.succ_lt_succ hi, by simpa using heq,
          by simpa using hlt, ?_, ?_⟩
        · intro x hx
          rcases List.mem_cons.mp hx with h | h
          · subst h
            exact le_of_lt (lt_of_lt_of_le (by simpa using hlt) hc)
          · simpa using hall x h
        · intro x hx
          rcases List.mem_cons.mp (by simpa using hx) with h | h
          · subst h
            exact lt_of_lt_of_le (by simpa using hlt) hc
          · simpa using hfirst x h

/-- The bid scan over a non-empty stack returns the first-encountered maximum. -/
theorem bestBidScan_cons_spec (o : Order) (rest : List Order) :
    ∃ i : ℕ, ∃ hi : i < (o :: rest).length,
      bestBidScan o rest = (o :: rest).get ⟨i, hi⟩
    ∧ (∀ x ∈ o :: rest, x.price ≤ (bestBidScan o rest).price)
    ∧ ∀ x ∈ (o :: rest).take i, x.price < (bestBidScan o rest).price := by
  rcases bestBidScan_spec rest o with ⟨heq, hall⟩ | ⟨i, hi, heq, hlt, hall, hfirst⟩
  · refine ⟨0, by simp, by simpa using heq, ?_, by simp⟩
    intro x hx
    rw [heq]
    rcases List.mem_cons.mp hx with h | h
    · simp [h]
    · exact hall x h
  · refine ⟨i + 1, by simpa using Nat.succ_lt_succ hi, by simpa using heq, ?_, ?_⟩
    · intro x hx
      rw [heq]
      rcases List.mem_cons.mp hx with h | h
      · subst h
        exact le_of_lt hlt
      · exact hall x h
    · intro x hx
      rw [heq]
      rcases List.mem_cons.mp (by simpa using hx) with h | h
      · subst h
        exact hlt
      · exact hfirst x h

/-- The offer scan over a non-empty stack returns the first-encountered minimum. -/
theorem bestOfferScan_cons_spec (o : Order) (rest : List Order) :
    ∃ i : ℕ, ∃ hi : i < (o :: rest).length,
      bestOfferScan o rest = (o :: rest).get ⟨i, hi⟩
    ∧ (∀ x ∈ o :: rest, (bestOfferScan o rest).price ≤ x.price)
    ∧ ∀ x ∈ (o :: rest).take i, (bestOfferScan o rest).price < x.price := by
  rcases bestOfferScan_spec rest o with ⟨heq, hall⟩ | ⟨i, hi, heq, hlt, hall, hfirst⟩
  · refine ⟨0, by simp, by simpa using heq, ?_, by simp⟩
    intro x hx
    rw [heq]
    rcases List.mem_cons.mp hx with h | h
    · simp [h]
    · exact hall x h
  · refine ⟨i + 1, by simpa using Nat.succ_lt_succ hi, by simpa using heq, ?_, ?_⟩
    · intro x hx
      rw [heq]
      rcases List.mem_cons.mp hx with h | h
      · subst h
        exact le_of_lt hlt
      · exact hall x h
    · intro x hx
      rw [heq]
      rcases List.mem_cons.mp (by simpa using hx) with h | h
      · subst h
        exact hlt
      · exact hfirst x h

/-- C3: for every order book with non-empty bid and offer stacks,
`GetBestBidOffer` returns the pair of the bid order with the maximum price in
the bid stack and the offer order with the minimum price in the offer stack,
ties on each side broken in favour of the first-encountered order in stack
order (every strictly earlier order has a strictly worse price). -/
theorem GetBestBidOffer_spec (ob : OrderBook)
    (hb : ob.bidStack ≠ []) (ho : ob.offerStack ≠ []) :
    (∃ i : ℕ, ∃ hi : i < ob.bidStack.length,
        ob.GetBestBidOffer.bidOrder = ob.bidStack.get ⟨i, hi⟩
      ∧ (∀ o ∈ ob.bidStack, o.price ≤ ob.GetBestBidOffer.bidOrder.price)
      ∧ ∀ o ∈ ob.bidStack.take i, o.price < ob.GetBestBidOffer.bidOrder.price)
  ∧ ∃ i : ℕ, ∃ hi : i < ob.offerStack.length,
        ob.GetBestBidOffer.offerOrder = ob.offerStack.get ⟨i, hi⟩
      ∧ (∀ o ∈ ob.offerStack, ob.GetBestBidOffer.offerOrder.price ≤ o.price)
      ∧ ∀ o ∈ ob.offerStack.take i, ob.GetBestBidOffer.offerOrder.price < o.price := by
  constructor
  · obtain ⟨o, rest, hstack⟩ : ∃ o rest, ob.bidStack = o :: rest := by
      cases h : ob.bidStack with
      | nil => exact absurd h hb
      | cons o rest => exact ⟨o, rest, rfl⟩
    have hres : ob.GetBestBidOffer.bidOrder = bestBidScan o rest := by
      simp [OrderBook.GetBestBidOffer, hstack]
    rw [hres, hstack]
    exact bestBidScan_cons_spec o rest
  · obtain ⟨o, rest, hstack⟩ : ∃ o rest, ob.offerStack = o :: rest := by
      cases h : ob.offerStack with
      | nil => exact absurd h ho
      | cons o rest => exact ⟨o, rest, rfl⟩
    have hres : ob.GetBestBidOffer.offerOrder = bestOfferScan o rest := by
      simp [OrderBook.GetBestBidOffer, hstack]
    rw [hres, hstack]
    exact bestOfferScan_cons_spec o rest

/-- Witness for `GetBestBidOffer_spec`: the spec example book, whose best bid
is 99.75/20 (index 1 of the bid stack) and best offer 99.90/5 (index 1 of
the offer stack). -/
theorem GetBestBidOffer_spec_witness :
    exampleBook.bidStack ≠ [] ∧ exampleBook.offerStack ≠ []
  ∧ ((∃ i : ℕ, ∃ hi : i < exampleBook.bidStack.length,
        exampleBook.GetBestBidOffer.bidOrder = exampleBook.bidStack.get ⟨i, hi⟩
      ∧ (∀ o ∈ exampleBook.bidStack, o.price ≤ exampleBook.GetBestBidOffer.bidOrder.price)
      ∧ ∀ o ∈ exampleBook.bidStack.take i, o.price < exampleBook.GetBestBidOffer.bidOrder.price)
    ∧ ∃ i : ℕ, ∃ hi : i < exampleBook.offerStack.length,
        exampleBook.GetBestBidOffer.offerOrder = exampleBook.offerStack.get ⟨i, hi⟩
      ∧ (∀ o ∈ exampleBook.offerStack, exampleBook.GetBestBidOffer.offerOrder.price ≤ o.price)
      ∧ ∀ o ∈ exampleBook.offerStack.take i,
          exampleBook.GetBestBidOffer.offerOrder.price < o.price) :=
  ⟨by simp [exampleBook], by simp [exampleBook],
   GetBestBidOffer_spec exampleBook (by simp [exampleBook]) (by simp [exampleBook])⟩

/-- C1: on an order-book update, if the best-offer price minus the best-bid
price is at most the execution threshold 1/128, the service emits exactly one
execution order: side alternating with the trigger count (even count → bid
side, odd → offer side), priced at that side's best price with that side's
best quantity, carrying the freshly generated order id, MARKET kind, zero
hidden quantity, empty parent-order id and child flag false, and the shared
counter increments.  If the spread exceeds the threshold, nothing is emitted
and the state is unchanged.  The counter is a single per-engine counter:
whenever an emission is followed by an emission for any order book (any
product), the sides differ. -/
theorem ExecuteOrder_spec (s : AlgoExecutionServiceState) (ob : OrderBook) (oid : String)
    (hthreshold : s.executionSpread = 1/128)
    (hb : ob.bidStack ≠ []) (ho : ob.offerStack ≠ []) :
    (ob.GetBestBidOffer.offerOrder.price - ob.GetBestBidOffer.bidOrder.price ≤ 1/128 →
       (AlgoExecutionService.ExecuteOrder s ob oid).2 = some
         { product := ob.product
         , side := if s.executionCount % 2 = 0 then PricingSide.BID else PricingSide.OFFER
         , orderId := oid
         , orderType := OrderType.MARKET
         , price := if s.executionCount % 2 = 0 then ob.GetBestBidOffer.bidOrder.price
                    else ob.GetBestBidOffer.offerOrder.price
         , visibleQuantity := if s.executionCount % 2 = 0 then ob.GetBestBidOffer.bidOrder.quantity
                              else ob.GetBestBidOffer.offerOrder.quantity
         , hiddenQuantity := 0
         , parentOrderId := ""
         , isChildOrder := false }
     ∧ (AlgoExecutionService.ExecuteOrder s ob oid).1.executionCount = s.executionCount + 1)
  ∧ (1/128 < ob.GetBestBidOffer.offerOrder.price - ob.GetBestBidOffer.bidOrder.price →
       AlgoExecutionService.ExecuteOrder s ob oid = (s, none))
  ∧ ∀ ob₂ oid₂ e₁ e₂,
       (AlgoExecutionService.ExecuteOrder s ob oid).2 = some e₁ →
       (AlgoExecutionService.ExecuteOrder
          (AlgoExecutionService.ExecuteOrder s ob oid).1 ob₂ oid₂).2 = some e₂ →
       e₂.side ≠ e₁.side := by
  obtain ⟨spread, count, m⟩ := s
  simp only at hthreshold
  subst hthreshold
  have hsplit : ∀ c : ℕ, c % 2 = 0 ∨ c % 2 = 1 := fun c => Nat.mod_two_eq_zero_or_one c
  refine ⟨?_, ?_, ?_⟩
  · intro hle
    have hle' : ob.GetBestBidOffer.offerOrder.price
        ≤ (128 : ℚ)⁻¹ + ob.GetBestBidOffer.bidOrder.price := by
      rw [show ((128 : ℚ)⁻¹ : ℚ) = 1/128 by norm_num]
      linarith
    rcases hsplit count with hpar | hpar
    · constructor
      · simp [AlgoExecutionService.ExecuteOrder, hle, hle', hpar]
      · simp [AlgoExecutionService.ExecuteOrder, hle, hle', hpar]
    · constructor
      · simp [AlgoExecutionService.ExecuteOrder, hle, hle', hpar]
      · simp [AlgoExecutionService.ExecuteOrder, hle, hle', hpar]
  · intro hgt
    have h1 : ¬ (ob.GetBestBidOffer.offerOrder.price
        - ob.GetBestBidOffer.bidOrder.price ≤ 1/128) := not_le.mpr hgt
    have h2 : ¬ (ob.GetBestBidOffer.offerOrder.price
        ≤ (128 : ℚ)⁻¹ + ob.GetBestBidOffer.bidOrder.price) := by
      rw [show ((128 : ℚ)⁻¹ : ℚ) = 1/128 by norm_num]
      intro h
      exact h1 (by linarith)
    simp [AlgoExecutionService.ExecuteOrder, h1, h2]
  · intro ob₂ oid₂ e₁ e₂ h1 h2
    by_cases hle : ob.GetBestBidOffer.offerOrder.price
        - ob.GetBestBidOffer.bidOrder.price ≤ 1/128
    · have hle' : ob.GetBestBidOffer.offerOrder.price
          ≤ (128 : ℚ)⁻¹ + ob.GetBestBidOffer.bidOrder.price := by
        rw [show ((128 : ℚ)⁻¹ : ℚ) = 1/128 by norm_num]
        linarith
      by_cases hle₂ : ob₂.GetBestBidOffer.offerOrder.price
          - ob₂.GetBestBidOffer.bidOrder.price ≤ 1/128
      · have hle₂' : ob₂.GetBestBidOffer.offerOrder.price
            ≤ (128 : ℚ)⁻¹ + ob₂.GetBestBidOffer.bidOrder.price := by
          rw [show ((128 : ℚ)⁻¹ : ℚ) = 1/128 by norm_num]
          linarith
        rcases hsplit count with hpar | hpar
        · have hpar₂ : (count + 1) % 2 = 1 := by omega
          simp [AlgoExecutionService.ExecuteOrder, hle, hle', hle₂, hle₂', hpar, hpar₂] at h1 h2
          rw [← h1, ← h2]
          simp
        · have hpar₂ : (count + 1) % 2 = 0 := by omega
          simp [AlgoExecutionService.ExecuteOrder, hle, hle', hle₂, hle₂', hpar, hpar₂] at h1 h2
          rw [← h1, ← h2]
          simp
      · have hle₂' : ¬ (ob₂.GetBestBidOffer.offerOrder.price
            ≤ (128 : ℚ)⁻¹ + ob₂.GetBestBidOffer.bidOrder.price) := by
          rw [show ((128 : ℚ)⁻¹ : ℚ) = 1/128 by norm_num]
          intro h
          exact hle₂ (by linarith)
        simp [AlgoExecutionService.ExecuteOrder, hle, hle', hle₂, hle₂'] at h2
    · have hle' : ¬ (ob.GetBestBidOffer.offerOrder.price
          ≤ (128 : ℚ)⁻¹ + ob.GetBestBidOffer.bidOrder.price) := by
        rw [show ((128 : ℚ)⁻¹ : ℚ) = 1/128 by norm_num]
        intro h
        exact hle (by linarith)
      simp [AlgoExecutionService.ExecuteOrder, hle, hle'] at h1

/-- An order book whose spread is exactly the execution threshold. -/
def crossingBook : OrderBook :=
  { product := "91282CMB4"
  , bidStack := [ { price := 100, quantity := 1000, side := PricingSide.BID } ]
  , offerStack := [ { price := 100 + 1/128, quantity := 2000, side := PricingSide.OFFER } ] }

/-- Witness for `ExecuteOrder_spec`: the freshly constructed service (even
counter 0) on a book whose spread is exactly 1/128. -/
theorem ExecuteOrder_spec_witness :
    initAlgoExecutionService.executionSpread = 1/128
  ∧ crossingBook.bidStack ≠ [] ∧ crossingBook.offerStack ≠ []
  ∧ ((crossingBook.GetBestBidOffer.offerOrder.price
        - crossingBook.GetBestBidOffer.bidOrder.price ≤ 1/128 →
       (AlgoExecutionService.ExecuteOrder initAlgoExecutionService crossingBook "EXEC00000001").2 = some
         { product := crossingBook.product
         , side := if initAlgoExecutionService.executionCount % 2 = 0 then PricingSide.BID
                   else PricingSide.OFFER
         , orderId := "EXEC00000001"
         , orderType := OrderType.MARKET
         , price := if initAlgoExecutionService.executionCount % 2 = 0 then
                      crossingBook.GetBestBidOffer.bidOrder.price
                    else crossingBook.GetBestBidOffer.offerOrder.price
         , visibleQuantity := if initAlgoExecutionService.executionCount % 2 = 0 then
                                crossingBook.GetBestBidOffer.bidOrder.quantity
                              else crossingBook.GetBestBidOffer.offerOrder.quantity
         , hiddenQuantity := 0
         , parentOrderId := ""
         , isChildOrder := false }
     ∧ (AlgoExecutionService.ExecuteOrder initAlgoExecutionService crossingBook
          "EXEC00000001").1.executionCount = initAlgoExecutionService.executionCount + 1)
    ∧ (1/128 < crossingBook.GetBestBidOffer.offerOrder.price
          - crossingBook.GetBestBidOffer.bidOrder.price →
        AlgoExecutionService.ExecuteOrder initAlgoExecutionService crossingBook "EXEC00000001"
          = (initAlgoExecutionService, none))
    ∧ ∀ ob₂ oid₂ e₁ e₂,
        (AlgoExecutionService.ExecuteOrder initAlgoExecutionService crossingBook
           "EXEC00000001").2 = some e₁ →
        (AlgoExecutionService.ExecuteOrder
           (AlgoExecutionService.ExecuteOrder initAlgoExecutionService crossingBook
              "EXEC00000001").1 ob₂ oid₂).2 = some e₂ →
        e₂.side ≠ e₁.side) :=
  ⟨rfl, by simp [crossingBook], by simp [crossingBook],
   ExecuteOrder_spec initAlgoExecutionService crossingBook "EXEC00000001" rfl
     (by simp [crossingBook]) (by simp [crossingBook])⟩

/-- C5: every `Price` update processed by the algo streaming engine emits a
two-sided quote unconditionally: bid price mid − spread/2, offer price mid +
spread/2, visible quantity alternating 10,000,000 / 20,000,000 with the
per-engine counter (even → 10M, odd → 20M), hidden quantity twice the
visible quantity on both sides, and the counter increments. -/
theorem PublishAlgorithmicPrice_spec (s : AlgoStreamingServiceState) (price : Price) :
    (AlgoStreamingService.PublishAlgorithmicPrice s price).2.product = price.product
  ∧ (AlgoStreamingService.PublishAlgorithmicPrice s price).2.bidOrder.price
      = price.mid - price.bidOfferSpread / 2
  ∧ (AlgoStreamingService.PublishAlgorithmicPrice s price).2.offerOrder.price
      = price.mid + price.bidOfferSpread / 2
  ∧ (AlgoStreamingService.PublishAlgorithmicPrice s price).2.bidOrder.side = PricingSide.BID
  ∧ (AlgoStreamingService.PublishAlgorithmicPrice s price).2.offerOrder.side = PricingSide.OFFER
  ∧ (AlgoStreamingService.PublishAlgorithmicPrice s price).2.bidOrder.visibleQuantity
      = (if s.orderCounter % 2 = 0 then 10000000 else 20000000)
  ∧ (AlgoStreamingService.PublishAlgorithmicPrice s price).2.offerOrder.visibleQuantity
      = (AlgoStreamingService.PublishAlgorithmicPrice s price).2.bidOrder.visibleQuantity
  ∧ (AlgoStreamingService.PublishAlgorithmicPrice s price).2.bidOrder.hiddenQuantity
      = 2 * (AlgoStreamingService.PublishAlgorithmicPrice s price).2.bidOrder.visibleQuantity
  ∧ (AlgoStreamingService.PublishAlgorithmicPrice s price).2.offerOrder.hiddenQuantity
      = 2 * (AlgoStreamingService.PublishAlgorithmicPrice s price).2.offerOrder.visibleQuantity
  ∧ (AlgoStreamingService.PublishAlgorithmicPrice s price).1.orderCounter = s.orderCounter + 1 := by
  by_cases hpar : s.orderCounter % 2 = 0
  · refine ⟨rfl, rfl, rfl, rfl, rfl, ?_, rfl, ?_, ?_, rfl⟩ <;>
      norm_num [AlgoStreamingService.PublishAlgorithmicPrice, hpar]
  · have h1 : s.orderCounter % 2 = 1 := Nat.mod_two_eq_zero_or_one s.orderCounter |>.resolve_left hpar
    refine ⟨rfl, rfl, rfl, rfl, rfl, ?_, rfl, ?_, ?_, rfl⟩ <;>
      norm_num [AlgoStreamingService.PublishAlgorithmicPrice, h1, hpar]

/-- Lookup after assignment: the assigned key reads the new value, every
other key is untouched. -/
theorem lookupKey_setKey {K V : Type} [DecidableEq K] (m : List (K × V)) (k k' : K) (v : V) :
    lookupKey (setKey m k v) k' = if k = k' then some v else lookupKey m k' := by
  induction m with
  | nil =>
    by_cases h : k = k' <;> simp [setKey, lookupKey, h]
  | cons e rest ih =>
    by_cases he : e.1 = k
    · by_cases h : k = k'
      · subst h
        simp [setKey, he, lookupKey]
      · have he' : e.1 ≠ k' := by
          rw [he]
          exact h
        simp [setKey, he, lookupKey, h, he']
    · by_cases h : k = k'
      · subst h
        simp [setKey, he, lookupKey, he, ih]
      · simp [setKey, he, lookupKey, ih, h]

/-- Lookup after accumulation: the bumped key reads its old value (default 0)
plus the increment, every other key is untouched. -/
theorem lookupKey_addKey {K : Type} [DecidableEq K] (m : List (K × ℤ)) (k k' : K) (q : ℤ) :
    lookupKey (addKey m k q) k' =
      if k = k' then some (getKeyD m k 0 + q) else lookupKey m k' := by
  induction m with
  | nil =>
    by_cases h : k = k' <;> simp [addKey, lookupKey, getKeyD, h]
  | cons e rest ih =>
    by_cases he : e.1 = k
    · by_cases h : k = k'
      · subst h
        simp [addKey, he, lookupKey, getKeyD]
      · have he' : e.1 ≠ k' := by
          rw [he]
          exact h
        simp [addKey, he, lookupKey, h, he']
    · by_cases h : k = k'
      · subst h
        simp [addKey, he, lookupKey, ih, getKeyD]
      · simp [addKey, he, lookupKey, ih, h]

/-- Default-0 read after accumulation. -/
theorem getKeyD_addKey {K : Type} [DecidableEq K] (m : List (K × ℤ)) (k k' : K) (q : ℤ) :
    getKeyD (addKey m k q) k' 0 = getKeyD m k' 0 + if k = k' then q else 0 := by
  by_cases h : k = k'
  · subst h
    simp [getKeyD, lookupKey_addKey]
  · simp [getKeyD, lookupKey_addKey, h]

/-- Accumulation adds its increment to the total of the stored values. -/
theorem sndSum_addKey {K : Type} [DecidableEq K] (m : List (K × ℤ)) (k : K) (q : ℤ) :
    ((addKey m k q).map Prod.snd).sum = (m.map Prod.snd).sum + q := by
  induction m with
  | nil => simp [addKey]
  | cons e rest ih =>
    by_cases he : e.1 = k
    · rw [show addKey (e :: rest) k q = (e.1, e.2 + q) :: rest by simp [addKey, he]]
      simp only [List.map_cons, List.sum_cons]
      ring
    · rw [show addKey (e :: rest) k q = e :: addKey rest k q by simp [addKey, he]]
      simp only [List.map_cons, List.sum_cons, ih]
      ring

/-- Keys present after accumulation. -/
theorem mem_keys_addKey {K : Type} [DecidableEq K] (m : List (K × ℤ)) (k k' : K) (q : ℤ) :
    k' ∈ (addKey m k q).map Prod.fst ↔ k' = k ∨ k' ∈ m.map Prod.fst := by
  induction m with
  | nil => simp [addKey]
  | cons e rest ih =>
    by_cases he : e.1 = k
    · simp [addKey, he]
    · simp [addKey, he, ih]
      tauto

/-- Accumulation preserves distinctness of keys. -/
theorem nodup_keys_addKey {K : Type} [DecidableEq K] (m : List (K × ℤ)) (k : K) (q : ℤ)
    (h : (m.map Prod.fst).Nodup) : ((addKey m k q).map Prod.fst).Nodup := by
  induction m with
  | nil => simp [addKey]
  | cons e rest ih =>
    rw [List.map_cons, List.nodup_cons] at h
    rcases h with ⟨hnot, hrest⟩
    by_cases he : e.1 = k
    · rw [show addKey (e :: rest) k q = (e.1, e.2 + q) :: rest by simp [addKey, he]]
      rw [List.map_cons, List.nodup_cons]
      exact ⟨hnot, hrest⟩
    · rw [show addKey (e :: rest) k q = e :: addKey rest k q by simp [addKey, he]]
      rw [List.map_cons, List.nodup_cons]
      refine ⟨?_, ih hrest⟩
      intro hmem
      rcases (mem_keys_addKey rest k e.1 q).mp hmem with h1 | h1
      · exact he h1
      · exact hnot h1

/-- A key is looked up successfully exactly when it occurs among the keys. -/
theorem lookupKey_isSome_iff {K V : Type} [DecidableEq K] (m : List (K × V)) (k : K) :
    (lookupKey m k).isSome ↔ k ∈ m.map Prod.fst := by
  induction m with
  | nil => simp [lookupKey]
  | cons e rest ih =>
    by_cases he : e.1 = k
    · simp [lookupKey, he]
    · simp [lookupKey, he, ih, Ne.symm he]

/-- With distinct keys, membership of an entry determines the lookup. -/
theorem lookupKey_of_mem {K V : Type} [DecidableEq K] (m : List (K × V)) (e : K × V)
    (hmem : e ∈ m) (hnd : (m.map Prod.fst).Nodup) : lookupKey m e.1 = some e.2 := by
  induction m with
  | nil => simp at hmem
  | cons f rest ih =>
    rw [List.map_cons, List.nodup_cons] at hnd
    rcases hnd with ⟨hnot, hrest⟩
    rcases List.mem_cons.mp hmem with h | h
    · subst h
      simp [lookupKey]
    · have hne : f.1 ≠ e.1 := by
        intro heq
        have hm : e.1 ∈ rest.map Prod.fst := List.mem_map_of_mem Prod.fst h
        rw [← heq] at hm
        exact hnot hm
      simp [lookupKey, hne, ih h hrest]

/-- Accumulating a list of keyed increments: the default-0 read of any key
gains exactly the sum of the increments carried at that key. -/
theorem getKeyD_foldl_addKey {α K : Type} [DecidableEq K] (kf : α → K) (vf : α → ℤ)
    (l : List α) (m : List (K × ℤ)) (k : K) :
    getKeyD (l.foldl (fun mm x => addKey mm (kf x) (vf x)) m) k 0
      = getKeyD m k 0 + ((l.filter fun x => decide (kf x = k)).map vf).sum := by
  induction l generalizing m with
  | nil => simp
  | cons x rest ih =>
    rw [List.foldl_cons, ih]
    by_cases h : kf x = k
    · simp [getKeyD_addKey, h]
      ring
    · simp [getKeyD_addKey, h]

/-- Accumulating a list of keyed increments adds the sum of all increments to
the total of the stored values. -/
theorem sndSum_foldl_addKey {α K : Type} [DecidableEq K] (kf : α → K) (vf : α → ℤ)
    (l : List α) (m : List (K × ℤ)) :
    ((l.foldl (fun mm x => addKey mm (kf x) (vf x)) m).map Prod.snd).sum
      = (m.map Prod.snd).sum + (l.map vf).sum := by
  induction l generalizing m with
  | nil => simp
  | cons x rest ih =>
    rw [List.foldl_cons, ih, sndSum_addKey]
    simp
    ring

/-- Keys present after accumulating a list of keyed increments. -/
theorem mem_keys_foldl_addKey {α K : Type} [DecidableEq K] (kf : α → K) (vf : α → ℤ)
    (l : List α) (m : List (K × ℤ)) (k : K) :
    k ∈ (l.foldl (fun mm x => addKey mm (kf x) (vf x)) m).map Prod.fst
      ↔ k ∈ m.map Prod.fst ∨ k ∈ l.map kf := by
  induction l generalizing m with
  | nil => simp
  | cons x rest ih =>
    rw [List.foldl_cons, ih, mem_keys_addKey, List.map_cons, List.mem_cons]
    tauto

/-- Accumulating keyed increments preserves distinctness of keys. -/
theorem nodup_keys_foldl_addKey {α K : Type} [DecidableEq K] (kf : α → K) (vf : α → ℤ)
    (l : List α) (m : List (K × ℤ)) (h : (m.map Prod.fst).Nodup) :
    ((l.foldl (fun mm x => addKey mm (kf x) (vf x)) m).map Prod.fst).Nodup := by
  induction l generalizing m with
  | nil => simpa using h
  | cons x rest ih =>
    rw [List.foldl_cons]
    exact ih _ (nodup_keys_addKey m (kf x) (vf x) h)

/-- With distinct keys, filtering an association list at a key and summing the
values is the default-0 lookup. -/
theorem filterSum_eq_getKeyD {K : Type} [DecidableEq K] (m : List (K × ℤ)) (k : K)
    (hnd : (m.map Prod.fst).Nodup) :
    ((m.filter fun e => decide (e.1 = k)).map Prod.snd).sum = getKeyD m k 0 := by
  induction m with
  | nil => simp [getKeyD, lookupKey]
  | cons e rest ih =>
    rw [List.map_cons, List.nodup_cons] at hnd
    rcases hnd with ⟨hnot, hrest⟩
    by_cases he : e.1 = k
    · have hnone : (rest.filter fun f => decide (f.1 = k)).map Prod.snd = [] := by
        rw [List.map_eq_nil_iff]
        rw [List.filter_eq_nil_iff]
        intro f hf
        simp only [decide_eq_true_eq]
        intro hfk
        apply hnot
        rw [← he] at hfk
        rw [← hfk]
        exact List.mem_map_of_mem Prod.fst hf
      simp [he, hnone, getKeyD, lookupKey]
    · simp [he, ih hrest, getKeyD, lookupKey]

/-- Folding `Position::AddPosition` over book/quantity pairs acts on the
inner book map by accumulation and leaves the product unchanged. -/
theorem foldl_AddPosition (l : List (String × ℤ)) (p : Position) :
    (l.foldl (fun acc e => acc.AddPosition e.1 e.2) p).positions
        = l.foldl (fun mm e => addKey mm e.1 e.2) p.positions
  ∧ (l.foldl (fun acc e => acc.AddPosition e.1 e.2) p).product = p.product := by
  induction l generalizing p with
  | nil => exact ⟨rfl, rfl⟩
  | cons e rest ih =>
    rw [List.foldl_cons, List.foldl_cons]
    rcases ih (p.AddPosition e.1 e.2) with ⟨h1, h2⟩
    exact ⟨h1, h2⟩

/-- C7: `AddTrade` stores, under the trade's product, a new `Position` in
which the trade's book holds its prior quantity plus the signed trade
quantity, every other book keeps its prior quantity (a missing prior
position reads as the empty position), positions of other products are
untouched, and the listeners are notified with exactly the stored new
position (the second result component). -/
theorem AddTrade_spec (s : PositionServiceState) (t : Trade)
    (hnd : ((getKeyD s.positions t.product emptyPosition).positions.map Prod.fst).Nodup) :
    lookupKey (PositionService.AddTrade s t).1.positions t.product
        = some (PositionService.AddTrade s t).2
  ∧ (PositionService.AddTrade s t).2.product = t.product
  ∧ getKeyD (PositionService.AddTrade s t).2.positions t.book 0
      = getKeyD (getKeyD s.positions t.product emptyPosition).positions t.book 0
          + signedQuantity t
  ∧ (∀ b : String, b ≠ t.book →
      getKeyD (PositionService.AddTrade s t).2.positions b 0
        = getKeyD (getKeyD s.positions t.product emptyPosition).positions b 0)
  ∧ ∀ pid : String, pid ≠ t.product →
      lookupKey (PositionService.AddTrade s t).1.positions pid = lookupKey s.positions pid := by
  have hpair : PositionService.AddTrade s t =
      ({ positions := setKey s.positions t.product (PositionService.AddTrade s t).2 },
        (PositionService.AddTrade s t).2) := by
    simp [PositionService.AddTrade]
  have hbase : ∃ q0 : ℤ, q0 = signedQuantity t ∧ (PositionService.AddTrade s t).2 =
      (getKeyD s.positions t.product emptyPosition).positions.foldl
        (fun acc e => acc.AddPosition e.1 e.2)
        { product := t.product, positions := [(t.book, q0)] } := by
    refine ⟨signedQuantity t, rfl, ?_⟩
    cases hside : t.side
    · simp [PositionService.AddTrade, hside, Position.AddPosition, addKey, signedQuantity]
    · simp [PositionService.AddTrade, hside, Position.AddPosition, addKey, signedQuantity]
  rcases hbase with ⟨q0, hq0, hto⟩
  rcases foldl_AddPosition
      ((getKeyD s.positions t.product emptyPosition).positions)
      { product := t.product, positions := [(t.book, q0)] } with ⟨hpos, hprod⟩
  refine ⟨?_, ?_, ?_, ?_, ?_⟩
  · rw [show (PositionService.AddTrade s t).1.positions
        = setKey s.positions t.product (PositionService.AddTrade s t).2 by
      rw [hpair]]
    rw [lookupKey_setKey]
    simp
  · rw [hto, hprod]
  · rw [hto, hpos, getKeyD_foldl_addKey]
    rw [filterSum_eq_getKeyD _ _ hnd]
    simp [getKeyD, lookupKey, hq0]
    ring
  · intro b hb
    rw [hto, hpos, getKeyD_foldl_addKey]
    rw [filterSum_eq_getKeyD _ _ hnd]
    simp [getKeyD, lookupKey, Ne.symm hb]
  · intro pid hpid
    rw [show (PositionService.AddTrade s t).1.positions
        = setKey s.positions t.product (PositionService.AddTrade s t).2 by
      rw [hpair]]
    rw [lookupKey_setKey]
    simp [Ne.symm hpid]

/-- One `AddTrade` step adds the trade's signed quantity to the aggregate
position of the trade's product. -/
theorem AddTrade_aggregate (s : PositionServiceState) (t : Trade) :
    (PositionService.AddTrade s t).2.GetAggregatePosition
      = (getKeyD s.positions t.product emptyPosition).GetAggregatePosition
          + signedQuantity t := by
  have hbase : ∃ q0 : ℤ, q0 = signedQuantity t ∧ (PositionService.AddTrade s t).2 =
      (getKeyD s.positions t.product emptyPosition).positions.foldl
        (fun acc e => acc.AddPosition e.1 e.2)
        { product := t.product, positions := [(t.book, q0)] } := by
    refine ⟨signedQuantity t, rfl, ?_⟩
    cases hside : t.side
    · simp [PositionService.AddTrade, hside, Position.AddPosition, addKey, signedQuantity]
    · simp [PositionService.AddTrade, hside, Position.AddPosition, addKey, signedQuantity]
  rcases hbase with ⟨q0, hq0, hto⟩
  rcases foldl_AddPosition
      ((getKeyD s.positions t.product emptyPosition).positions)
      { product := t.product, positions := [(t.book, q0)] } with ⟨hpos, hprod⟩
  rw [Position.GetAggregatePosition, hto, hpos,
    sndSum_foldl_addKey (fun e : String × ℤ => e.1) (fun e : String × ℤ => e.2)]
  simp [Position.GetAggregatePosition, hq0]
  ring

/-- Replaying trades of one product accumulates the sum of the signed
quantities onto the product's aggregate position. -/
theorem replay_aggregate (pid : String) (trades : List Trade) :
    ∀ s : PositionServiceState, (∀ t ∈ trades, t.product = pid) →
    (getKeyD (trades.foldl (fun s t => (PositionService.AddTrade s t).1) s).positions
        pid emptyPosition).GetAggregatePosition
      = (getKeyD s.positions pid emptyPosition).GetAggregatePosition
          + (trades.map signedQuantity).sum := by
  induction trades with
  | nil =>
    intro s h
    simp
  | cons t rest ih =>
    intro s h
    have ht : t.product = pid := h t (List.mem_cons_self t rest)
    have hrest : ∀ u ∈ rest, u.product = pid := fun u hu => h u (List.mem_cons_of_mem t hu)
    rw [List.foldl_cons, ih _ hrest]
    have hstore : getKeyD (PositionService.AddTrade s t).1.positions pid emptyPosition
        = (PositionService.AddTrade s t).2 := by
      have : (PositionService.AddTrade s t).1.positions
          = setKey s.positions t.product (PositionService.AddTrade s t).2 := by
        simp [PositionService.AddTrade]
      rw [getKeyD, this, lookupKey_setKey, ht]
      simp
    rw [hstore, AddTrade_aggregate, ht]
    simp
    ring

/-- C6: replaying any finite sequence of trades on one product from an empty
store yields an aggregate position equal to the sum of the trades' signed
quantities (BUY positive, SELL negative), and every reordering of the
sequence yields the same aggregate. -/
theorem positionAggregate_spec (pid : String) (trades : List Trade)
    (h : ∀ t ∈ trades, t.product = pid) :
    (getKeyD (replayTrades trades).positions pid emptyPosition).GetAggregatePosition
        = (trades.map signedQuantity).sum
  ∧ ∀ trades₂ : List Trade, trades.Perm trades₂ →
      (getKeyD (replayTrades trades₂).positions pid emptyPosition).GetAggregatePosition
        = (trades.map signedQuantity).sum := by
  constructor
  · rw [replayTrades, replay_aggregate pid trades _ h]
    simp [getKeyD, lookupKey, emptyPosition, Position.GetAggregatePosition]
  · intro trades₂ hperm
    have h₂ : ∀ t ∈ trades₂, t.product = pid := fun t ht => h t (hperm.mem_iff.mpr ht)
    rw [replayTrades, replay_aggregate pid trades₂ _ h₂]
    rw [show (trades₂.map signedQuantity).sum = (trades.map signedQuantity).sum from
      ((hperm.map signedQuantity).sum_eq).symm]
    simp [getKeyD, lookupKey, emptyPosition, Position.GetAggregatePosition]

/-- Appending a fresh binding makes it visible to lookup. -/
theorem lookupKey_append_single {K V : Type} [DecidableEq K] (m : List (K × V)) (k : K) (d : V)
    (h : lookupKey m k = none) : lookupKey (m ++ [(k, d)]) k = some d := by
  induction m with
  | nil => simp [lookupKey]
  | cons e rest ih =>
    by_cases he : e.1 = k
    · rw [lookupKey_cons] at h
      simp [he] at h
    · rw [lookupKey_cons] at h
      rw [List.cons_append, lookupKey_cons]
      simp only [he, if_false]
      simp [he] at h
      exact ih h

/-- Witness for `AddTrade_spec` at a concrete stored state and BUY trade. -/
theorem AddTrade_spec_witness :
    ((getKeyD examplePositionState.positions exampleTrade.product
        emptyPosition).positions.map Prod.fst).Nodup
  ∧ (lookupKey (PositionService.AddTrade examplePositionState exampleTrade).1.positions
        exampleTrade.product
        = some (PositionService.AddTrade examplePositionState exampleTrade).2
    ∧ (PositionService.AddTrade examplePositionState exampleTrade).2.product
        = exampleTrade.product
    ∧ getKeyD (PositionService.AddTrade examplePositionState exampleTrade).2.positions
          exampleTrade.book 0
        = getKeyD (getKeyD examplePositionState.positions exampleTrade.product
              emptyPosition).positions exampleTrade.book 0
            + signedQuantity exampleTrade
    ∧ (∀ b : String, b ≠ exampleTrade.book →
        getKeyD (PositionService.AddTrade examplePositionState exampleTrade).2.positions b 0
          = getKeyD (getKeyD examplePositionState.positions exampleTrade.product
              emptyPosition).positions b 0)
    ∧ ∀ pid : String, pid ≠ exampleTrade.product →
        lookupKey (PositionService.AddTrade examplePositionState exampleTrade).1.positions pid
          = lookupKey examplePositionState.positions pid) :=
  ⟨by decide, AddTrade_spec examplePositionState exampleTrade (by decide)⟩

/-- Witness for `positionAggregate_spec` at a concrete BUY/SELL sequence. -/
theorem positionAggregate_spec_witness :
    (∀ t ∈ exampleTrades, t.product = "91282CLY5")
  ∧ ((getKeyD (replayTrades exampleTrades).positions "91282CLY5"
        emptyPosition).GetAggregatePosition
        = (exampleTrades.map signedQuantity).sum
    ∧ ∀ trades₂ : List Trade, exampleTrades.Perm trades₂ →
        (getKeyD (replayTrades trades₂).positions "91282CLY5"
            emptyPosition).GetAggregatePosition
          = (exampleTrades.map signedQuantity).sum) :=
  ⟨by decide, positionAggregate_spec "91282CLY5" exampleTrades (by decide)⟩

/-- C8: `RiskService::AddPosition` on a product id outside the static PV01
reference table raises the unknown-reference error, leaving the stored PV01
map unchanged and notifying no listener; on a product id inside the table no
error is raised, and the PV01 built from the table value and the position's
aggregate quantity is stored and notified. -/
theorem RiskAddPosition_spec (s : RiskServiceState) (position : Position) :
    (PV01Info position.product = none →
       RiskService.AddPosition s position = (s, none, some "Unknown CUSIP"))
  ∧ ∀ v : ℚ, PV01Info position.product = some v →
       RiskService.AddPosition s position =
         ({ pv01s := setKey s.pv01s position.product
              { product := position.product, pv01 := v
              , quantity := position.GetAggregatePosition } }
         , some { product := position.product, pv01 := v
                , quantity := position.GetAggregatePosition }
         , none) := by
  constructor
  · intro h
    simp [RiskService.AddPosition, h]
  · intro v h
    simp [RiskService.AddPosition, h]

/-- Witness for `RiskAddPosition_spec`: an unknown product id (error, state
unchanged, nothing notified) and a known one (no error). -/
theorem RiskAddPosition_spec_witness :
    PV01Info unknownPosition.product = none
  ∧ RiskService.AddPosition { pv01s := [] } unknownPosition
      = ({ pv01s := [] }, none, some "Unknown CUSIP")
  ∧ PV01Info knownPosition.product = some (1854/10000)
  ∧ RiskService.AddPosition { pv01s := [] } knownPosition =
      ({ pv01s := setKey [] knownPosition.product
           { product := knownPosition.product, pv01 := 1854/10000
           , quantity := knownPosition.GetAggregatePosition } }
      , some { product := knownPosition.product, pv01 := 1854/10000
             , quantity := knownPosition.GetAggregatePosition }
      , none) :=
  ⟨rfl
  , (RiskAddPosition_spec { pv01s := [] } unknownPosition).1 rfl
  , rfl
  , (RiskAddPosition_spec { pv01s := [] } knownPosition).2 (1854/10000) rfl⟩

/-- Imperative accumulation is summation. -/
theorem foldl_add_eq_sum (l : List String) (f : String → ℚ) (init : ℚ) :
    l.foldl (fun acc x => acc + f x) init = init + (l.map f).sum := by
  induction l generalizing init with
  | nil => simp
  | cons x rest ih =>
    rw [List.foldl_cons, ih]
    simp
    ring

/-- C9: `GetBucketedRisk` returns a PV01 whose value is the sum, over the
sector's products, of the last-stored PV01 value times the last-stored
quantity (value-initialised defaults for never-stored products), whose
quantity is the fixed sentinel 1, and whose product is the sector. -/
theorem GetBucketedRisk_spec (s : RiskServiceState) (sector : BucketedSector) :
    (RiskService.GetBucketedRisk s sector).pv01
      = (sector.products.map fun pId =>
          (getKeyD s.pv01s pId defaultPV01).pv01
            * ((getKeyD s.pv01s pId defaultPV01).quantity : ℚ)).sum
  ∧ (RiskService.GetBucketedRisk s sector).quantity = 1
  ∧ (RiskService.GetBucketedRisk s sector).product = sector := by
  refine ⟨?_, rfl, rfl⟩
  rw [show (RiskService.GetBucketedRisk s sector).pv01
      = sector.products.foldl
          (fun acc pId =>
            acc + (getKeyD s.pv01s pId defaultPV01).pv01
                * ((getKeyD s.pv01s pId defaultPV01).quantity : ℚ)) 0 from rfl]
  rw [foldl_add_eq_sum sector.products
    (fun pId => (getKeyD s.pv01s pId defaultPV01).pv01
      * ((getKeyD s.pv01s pId defaultPV01).quantity : ℚ)) 0]
  simp

/-- C10: reading a never-written key through `GetData` returns the
value-initialised default and, as a side effect, inserts that default into
the stored map, after which the key is a current entry of the store; this
holds for the pricing, risk and market-data stores alike. -/
theorem GetData_fresh_spec (ps : PricingServiceState) (rs : RiskServiceState)
    (ms : BondMarketDataServiceState) (k : String)
    (hp : lookupKey ps.priceData k = none)
    (hr : lookupKey rs.pv01s k = none)
    (hm : lookupKey ms.orderBooks k = none) :
    (PricingService.GetData ps k).1 = defaultPrice
  ∧ lookupKey (PricingService.GetData ps k).2.priceData k = some defaultPrice
  ∧ (RiskService.GetData rs k).1 = defaultPV01
  ∧ lookupKey (RiskService.GetData rs k).2.pv01s k = some defaultPV01
  ∧ (BondMarketDataService.GetData ms k).1 = defaultOrderBook
  ∧ lookupKey (BondMarketDataService.GetData ms k).2.orderBooks k = some defaultOrderBook := by
  refine ⟨?_, ?_, ?_, ?_, ?_, ?_⟩
  · simp [PricingService.GetData, mapIndex, hp]
  · rw [show (PricingService.GetData ps k).2.priceData = ps.priceData ++ [(k, defaultPrice)] by
      simp [PricingService.GetData, mapIndex, hp]]
    exact lookupKey_append_single ps.priceData k defaultPrice hp
  · simp [RiskService.GetData, mapIndex, hr]
  · rw [show (RiskService.GetData rs k).2.pv01s = rs.pv01s ++ [(k, defaultPV01)] by
      simp [RiskService.GetData, mapIndex, hr]]
    exact lookupKey_append_single rs.pv01s k defaultPV01 hr
  · simp [BondMarketDataService.GetData, mapIndex, hm]
  · rw [show (BondMarketDataService.GetData ms k).2.orderBooks
        = ms.orderBooks ++ [(k, defaultOrderBook)] by
      simp [BondMarketDataService.GetData, mapIndex, hm]]
    exact lookupKey_append_single ms.orderBooks k defaultOrderBook hm

/-- Witness for `GetData_fresh_spec`: empty stores and a fresh key. -/
theorem GetData_fresh_spec_witness :
    lookupKey ({ priceData := [] } : PricingServiceState).priceData "91282CLY5" = none
  ∧ lookupKey ({ pv01s := [] } : RiskServiceState).pv01s "91282CLY5" = none
  ∧ lookupKey ({ orderBooks := [], bookDepth := 5 } :
      BondMarketDataServiceState).orderBooks "91282CLY5" = none
  ∧ ((PricingService.GetData { priceData := [] } "91282CLY5").1 = defaultPrice
    ∧ lookupKey (PricingService.GetData { priceData := [] } "91282CLY5").2.priceData "91282CLY5"
        = some defaultPrice
    ∧ (RiskService.GetData { pv01s := [] } "91282CLY5").1 = defaultPV01
    ∧ lookupKey (RiskService.GetData { pv01s := [] } "91282CLY5").2.pv01s "91282CLY5"
        = some defaultPV01
    ∧ (BondMarketDataService.GetData { orderBooks := [], bookDepth := 5 } "91282CLY5").1
        = defaultOrderBook
    ∧ lookupKey (BondMarketDataService.GetData { orderBooks := [], bookDepth := 5 }
          "91282CLY5").2.orderBooks "91282CLY5"
        = some defaultOrderBook) :=
  ⟨rfl, rfl, rfl
  , GetData_fresh_spec { priceData := [] } { pv01s := [] }
      { orderBooks := [], bookDepth := 5 } "91282CLY5" rfl rfl rfl⟩

/-- The `aggregateStack` lambda satisfies claim C4's set reading: one order
per distinct input price, carrying the summed quantity at that price, side
as given. -/
theorem aggregateStack_spec (stack : List Order) (side : PricingSide) :
    aggregatedSpec (aggregateStack stack side) stack side := by
  refine ⟨?_, ?_, ?_⟩
  · rw [show (aggregateStack stack side).map Order.price
        = (stack.foldl (fun m o => addKey m o.price o.quantity) []).map Prod.fst by
      rw [aggregateStack, List.map_map]
      rfl]
    exact nodup_keys_foldl_addKey Order.price Order.quantity stack [] (by simp)
  · intro p
    rw [show (aggregateStack stack side).map Order.price
        = (stack.foldl (fun m o => addKey m o.price o.quantity) []).map Prod.fst by
      rw [aggregateStack, List.map_map]
      rfl]
    rw [mem_keys_foldl_addKey Order.price Order.quantity stack [] p]
    simp
  · intro o ho
    rw [aggregateStack, List.mem_map] at ho
    rcases ho with ⟨e, he, rfl⟩
    refine ⟨rfl, ?_⟩
    have hnd : ((stack.foldl (fun m o => addKey m o.price o.quantity) []).map Prod.fst).Nodup :=
      nodup_keys_foldl_addKey Order.price Order.quantity stack [] (by simp)
    have hlook := lookupKey_of_mem _ e he hnd
    have hget : getKeyD (stack.foldl (fun m o => addKey m o.price o.quantity) []) e.1 0 = e.2 := by
      rw [getKeyD, hlook]
      rfl
    rw [getKeyD_foldl_addKey Order.price Order.quantity stack [] e.1] at hget
    simp only [getKeyD, lookupKey, Option.getD_none, zero_add] at hget
    rw [show ({ price := e.1, quantity := e.2, side := side } : Order).quantity = e.2 from rfl,
      show ({ price := e.1, quantity := e.2, side := side } : Order).price = e.1 from rfl,
      sumQuantityAt, ← hget]

/-- C4: for every stored order book, `AggregateDepth` returns an order book
for the same product whose bid stack and offer stack, compared as sets,
contain exactly one order per distinct price of the corresponding input
stack, carrying the summed quantity at that price, with the side
preserved. -/
theorem AggregateDepth_spec (s : BondMarketDataServiceState) (productId : String)
    (ob : OrderBook) (h : lookupKey s.orderBooks productId = some ob) :
    (BondMarketDataService.AggregateDepth s productId).1.product = ob.product
  ∧ aggregatedSpec (BondMarketDataService.AggregateDepth s productId).1.bidStack
      ob.bidStack PricingSide.BID
  ∧ aggregatedSpec (BondMarketDataService.AggregateDepth s productId).1.offerStack
      ob.offerStack PricingSide.OFFER := by
  have hread : mapIndex s.orderBooks productId defaultOrderBook = (ob, s.orderBooks) := by
    simp [mapIndex, h]
  refine ⟨?_, ?_, ?_⟩
  · simp [BondMarketDataService.AggregateDepth, hread]
  · rw [show (BondMarketDataService.AggregateDepth s productId).1.bidStack
        = aggregateStack ob.bidStack PricingSide.BID by
      simp [BondMarketDataService.AggregateDepth, hread]]
    exact aggregateStack_spec ob.bidStack PricingSide.BID
  · rw [show (BondMarketDataService.AggregateDepth s productId).1.offerStack
        = aggregateStack ob.offerStack PricingSide.OFFER by
      simp [BondMarketDataService.AggregateDepth, hread]]
    exact aggregateStack_spec ob.offerStack PricingSide.OFFER

/-- Witness for `AggregateDepth_spec` at a stored book with duplicate price
levels on both sides. -/
theorem AggregateDepth_spec_witness :
    lookupKey exampleMDState.orderBooks "91282CLY5" = some exampleDepthBook
  ∧ ((BondMarketDataService.AggregateDepth exampleMDState "91282CLY5").1.product
        = exampleDepthBook.product
    ∧ aggregatedSpec (BondMarketDataService.AggregateDepth exampleMDState "91282CLY5").1.bidStack
        exampleDepthBook.bidStack PricingSide.BID
    ∧ aggregatedSpec (BondMarketDataService.AggregateDepth exampleMDState "91282CLY5").1.offerStack
        exampleDepthBook.offerStack PricingSide.OFFER) :=
  ⟨rfl, AggregateDepth_spec exampleMDState "91282CLY5" exampleDepthBook rfl⟩

theorem charVal_digitChar : ∀ d : ℕ, d < 10 → charVal (digitChar d) = d := by decide

theorem digitChar_ne_dash : ∀ d : ℕ, d < 10 → digitChar d ≠ '-' := by decide

theorem digitChar_ne_plus : ∀ d : ℕ, d < 10 → digitChar d ≠ '+' := by decide

/-- The fuel argument of `natDigitsAux` is irrelevant once sufficient. -/
theorem natDigitsAux_congr : ∀ (n f g : ℕ), n < f → n < g →
    natDigitsAux f n = natDigitsAux g n := by
  intro n
  induction n using Nat.strong_induction_on with
  | _ n ih =>
    intro f g hf hg
    match f, g with
    | f' + 1, g' + 1 =>
      by_cases h : n < 10
      · simp [natDigitsAux, h]
      · have hd : n / 10 < n := Nat.div_lt_self (by omega) (by omega)
        simp only [natDigitsAux, if_neg h]
        rw [ih (n / 10) hd f' g' (by omega) (by omega)]

/-- Unfolding equation of the canonical decimal rendering. -/
theorem natDigits_eq (n : ℕ) :
    natDigits n = if n < 10 then [digitChar n]
      else natDigits (n / 10) ++ [digitChar (n % 10)] := by
  by_cases h : n < 10
  · simp [natDigits, natDigitsAux, h]
  · have hd : n / 10 < n := Nat.div_lt_self (by omega) (by omega)
    rw [if_neg h]
    show natDigitsAux (n + 1) n = _
    simp only [natDigitsAux, if_neg h]
    rw [natDigitsAux_congr (n / 10) n (n / 10 + 1) (by omega) (by omega)]
    rfl

theorem natDigits_small (n : ℕ) (h : n < 10) : natDigits n = [digitChar n] := by
  rw [natDigits_eq, if_pos h]

theorem natDigits_two (n : ℕ) (h10 : 10 ≤ n) (h100 : n < 100) :
    natDigits n = [digitChar (n / 10), digitChar (n % 10)] := by
  rw [natDigits_eq, if_neg (by omega), natDigits_small (n / 10) (by omega)]
  rfl

/-- Every character of a canonical decimal rendering is a digit. -/
theorem natDigits_digits (n : ℕ) : ∀ c ∈ natDigits n, ∃ d, d < 10 ∧ c = digitChar d := by
  induction n using Nat.strong_induction_on with
  | _ n ih =>
    intro c hc
    rw [natDigits_eq] at hc
    by_cases h : n < 10
    · rw [if_pos h] at hc
      simp at hc
      exact ⟨n, h, hc⟩
    · rw [if_neg h] at hc
      rcases List.mem_append.mp hc with h1 | h1
      · exact ih (n / 10) (Nat.div_lt_self (by omega) (by omega)) c h1
      · simp at h1
        exact ⟨n % 10, Nat.mod_lt n (by omega), h1⟩

theorem natDigits_ne_dash (n : ℕ) : ∀ c ∈ natDigits n, c ≠ '-' := by
  intro c hc
  rcases natDigits_digits n c hc with ⟨d, hd, rfl⟩
  exact digitChar_ne_dash d hd

theorem digitsToNat_append (xs : List Char) (c : Char) :
    digitsToNat (xs ++ [c]) = digitsToNat xs * 10 + charVal c := by
  rw [digitsToNat, digitsToNat, List.foldl_append]
  rfl

theorem digitsToNat_single (c : Char) : digitsToNat [c] = charVal c := by
  simp [digitsToNat]

/-- Rendering then reading a natural number is the identity. -/
theorem digitsToNat_natDigits (n : ℕ) : digitsToNat (natDigits n) = n := by
  induction n using Nat.strong_induction_on with
  | _ n ih =>
    rw [natDigits_eq]
    by_cases h : n < 10
    · rw [if_pos h, digitsToNat_single, charVal_digitChar n h]
    · rw [if_neg h, digitsToNat_append,
        ih (n / 10) (Nat.div_lt_self (by omega) (by omega)),
        charVal_digitChar (n % 10) (Nat.mod_lt n (by omega))]
      omega

theorem parseLoop_nil (d : ℕ) (w a b : List Char) : parseLoop [] d w a b = (w, a, b) := rfl

theorem parseLoop_dash (rest : List Char) (d : ℕ) (w a b : List Char) :
    parseLoop ('-' :: rest) d w a b = parseLoop rest (d + 1) w a b := by
  simp [parseLoop]

theorem parseLoop_whole (c : Char) (rest : List Char) (w a b : List Char) (hc : c ≠ '-') :
    parseLoop (c :: rest) 0 w a b = parseLoop rest 0 (w ++ [c]) a b := by
  simp [parseLoop, hc]

theorem parseLoop_ff1 (c : Char) (rest : List Char) (w a b : List Char) (hc : c ≠ '-') :
    parseLoop (c :: rest) 1 w a b = parseLoop rest 2 w (a ++ [c]) b := by
  simp [parseLoop, hc]

theorem parseLoop_ff2 (c : Char) (rest : List Char) (w a b : List Char) (hc : c ≠ '-') :
    parseLoop (c :: rest) 2 w a b = parseLoop rest 3 w (a ++ [c]) b := by
  simp [parseLoop, hc]

theorem parseLoop_e (c : Char) (rest : List Char) (w a b : List Char) (hc : c ≠ '-') :
    parseLoop (c :: rest) 3 w a b
      = parseLoop rest 3 w a (b ++ [if c = '+' then '4' else c]) := by
  simp [parseLoop, hc]

/-- Leading digit characters all land in the whole-part bucket. -/
theorem parseLoop_digits_whole (ds : List Char) :
    ∀ (rest w a b : List Char), (∀ c ∈ ds, c ≠ '-') →
    parseLoop (ds ++ rest) 0 w a b = parseLoop rest 0 (w ++ ds) a b := by
  induction ds with
  | nil =>
    intro rest w a b _
    simp
  | cons c ds' ih =>
    intro rest w a b h
    rw [List.cons_append,
      parseLoop_whole c (ds' ++ rest) w a b (h c (List.mem_cons_self c ds')),
      ih rest (w ++ [c]) a b (fun x hx => h x (List.mem_cons_of_mem c hx))]
    simp

/-- `ParsePrice`'s character loop splits a canonical W-FFE string into its
whole digits, two 32nds digits, and one eighths digit (a `'+'` read as
`'4'`). -/
theorem parseLoop_priceChars (w f32 f8 : ℕ) (h32 : f32 ≤ 31) (h8 : f8 ≤ 7) :
    parseLoop (priceChars w f32 f8) 0 [] [] []
      = (natDigits w, (if f32 < 10 then ['0'] else []) ++ natDigits f32, [digitChar f8]) := by
  obtain ⟨c1, c2, hff, hc1, hc2⟩ :
      ∃ c1 c2, (if f32 < 10 then ['0'] else []) ++ natDigits f32 = [c1, c2]
        ∧ c1 ≠ '-' ∧ c2 ≠ '-' := by
    by_cases h : f32 < 10
    · refine ⟨'0', digitChar f32, ?_, by decide, digitChar_ne_dash f32 (by omega)⟩
      simp [h, natDigits_small f32 h]
    · refine ⟨digitChar (f32 / 10), digitChar (f32 % 10), ?_,
        digitChar_ne_dash _ (by omega), digitChar_ne_dash _ (by omega)⟩
      simp [h, natDigits_two f32 (by omega) (by omega)]
  obtain ⟨e, heq, hedash, hrepl⟩ :
      ∃ e, (if f8 = 4 then ['+'] else natDigits f8) = [e] ∧ e ≠ '-'
        ∧ (if e = '+' then '4' else e) = digitChar f8 := by
    by_cases h : f8 = 4
    · refine ⟨'+', by simp [h], by decide, ?_⟩
      subst h
      decide
    · refine ⟨digitChar f8, by simp [h, natDigits_small f8 (by omega)],
        digitChar_ne_dash _ (by omega), ?_⟩
      rw [if_neg (digitChar_ne_plus f8 (by omega))]
  rw [priceChars, hff, heq]
  rw [show ([c1, c2] ++ [e]) = c1 :: c2 :: [e] from rfl]
  rw [parseLoop_digits_whole (natDigits w) ('-' :: c1 :: c2 :: [e]) [] [] []
    (natDigits_ne_dash w)]
  rw [parseLoop_dash, parseLoop_ff1 c1 _ _ _ _ hc1, parseLoop_ff2 c2 _ _ _ _ hc2,
    parseLoop_e e _ _ _ _ hedash, parseLoop_nil]
  rw [hrepl]
  simp

/-- Value of `ParsePrice` on a canonical W-FFE string. -/
theorem ParsePrice_priceString (w f32 f8 : ℕ) (h32 : f32 ≤ 31) (h8 : f8 ≤ 7) :
    ParsePrice (priceString w f32 f8) = ((256 * w + 8 * f32 + f8 : ℕ) : ℚ) / 256 := by
  have h0 : charVal '0' = 0 := by decide
  have hff : digitsToNat ((if f32 < 10 then ['0'] else []) ++ natDigits f32) = f32 := by
    by_cases h : f32 < 10
    · rw [if_pos h, natDigits_small f32 h]
      rw [show (['0'] ++ [digitChar f32]) = ['0', digitChar f32] from rfl]
      simp [digitsToNat, h0, charVal_digitChar f32 h]
    · rw [if_neg h, natDigits_two f32 (by omega) (by omega)]
      simp [digitsToNat, charVal_digitChar (f32 / 10) (by omega),
        charVal_digitChar (f32 % 10) (by omega)]
      omega
  rw [show ParsePrice (priceString w f32 f8)
      = stodVal (parseLoop (priceChars w f32 f8) 0 [] [] []).1
        + stodVal (parseLoop (priceChars w f32 f8) 0 [] [] []).2.1 / 32
        + stodVal (parseLoop (priceChars w f32 f8) 0 [] [] []).2.2 / 256 from rfl]
  rw [parseLoop_priceChars w f32 f8 h32 h8]
  rw [show ((natDigits w, (if f32 < 10 then ['0'] else []) ++ natDigits f32,
      [digitChar f8]) : List Char × List Char × List Char).1 = natDigits w from rfl]
  rw [show ((natDigits w, (if f32 < 10 then ['0'] else []) ++ natDigits f32,
      [digitChar f8]) : List Char × List Char × List Char).2.1
      = (if f32 < 10 then ['0'] else []) ++ natDigits f32 from rfl]
  rw [show ((natDigits w, (if f32 < 10 then ['0'] else []) ++ natDigits f32,
      [digitChar f8]) : List Char × List Char × List Char).2.2 = [digitChar f8] from rfl]
  rw [stodVal, stodVal, stodVal, digitsToNat_natDigits, hff, digitsToNat_single,
    charVal_digitChar f8 (by omega)]
  push_cast
  field_simp
  ring

/-- `FormatPrice` at a non-negative multiple of 1/256 produces the canonical
W-FFE string of its integer part, 32nds and eighths. -/
theorem FormatPrice_eval (n : ℕ) :
    FormatPrice ((n : ℚ) / 256) = priceString (n / 256) (n % 256 / 8) (n % 256 % 8) := by
  have hfloor : (⌊(n : ℚ) / 256⌋ : ℤ) = ((n / 256 : ℕ) : ℤ) := by
    rw [Int.floor_eq_iff]
    constructor
    · rw [le_div_iff₀ (by norm_num : (0 : ℚ) < 256)]
      have h : (n / 256) * 256 ≤ n := by omega
      exact_mod_cast h
    · rw [div_lt_iff₀ (by norm_num : (0 : ℚ) < 256)]
      have h : n < (n / 256 + 1) * 256 := by omega
      push_cast
      exact_mod_cast h
  have hfrac : (n : ℚ) / 256 - (((n / 256 : ℕ) : ℤ) : ℚ) = ((n % 256 : ℕ) : ℚ) / 256 := by
    have hn : (n : ℚ) = ((n / 256 : ℕ) : ℚ) * 256 + ((n % 256 : ℕ) : ℚ) := by
      have h : n / 256 * 256 + n % 256 = n := by omega
      exact_mod_cast (congrArg (fun m : ℕ => (m : ℚ)) h).symm
    rw [Int.cast_natCast, hn]
    ring
  have hf256 : (⌊(((n % 256 : ℕ) : ℚ) / 256) * 256⌋ : ℤ) = ((n % 256 : ℕ) : ℤ) := by
    rw [div_mul_cancel₀ _ (by norm_num : (256 : ℚ) ≠ 0)]
    exact Int.floor_natCast (n % 256)
  have hnonneg : ¬ (((n / 256 : ℕ) : ℤ) < 0) :=
    not_lt.mpr (Int.natCast_nonneg (n / 256))
  rw [show FormatPrice ((n : ℚ) / 256)
      = String.mk (intChars ⌊(n : ℚ) / 256⌋ ++ '-' ::
          (((if (⌊((n : ℚ) / 256 - ((⌊(n : ℚ) / 256⌋ : ℤ) : ℚ)) * 256⌋).toNat / 8 < 10
              then ['0'] else [])
            ++ natDigits ((⌊((n : ℚ) / 256 - ((⌊(n : ℚ) / 256⌋ : ℤ) : ℚ)) * 256⌋).toNat / 8))
          ++ (if (⌊((n : ℚ) / 256 - ((⌊(n : ℚ) / 256⌋ : ℤ) : ℚ)) * 256⌋).toNat % 8 = 4
              then ['+']
              else natDigits ((⌊((n : ℚ) / 256 - ((⌊(n : ℚ) / 256⌋ : ℤ) : ℚ)) * 256⌋).toNat % 8))))
      from rfl]
  rw [hfloor, hfrac, hf256]
  rw [show (((n % 256 : ℕ) : ℤ)).toNat = n % 256 from Int.toNat_natCast (n % 256)]
  rw [intChars, if_neg hnonneg, Int.toNat_natCast]
  rfl

/-- C2 (amended): `ParsePrice ∘ FormatPrice` is the identity on every
non-negative multiple of 1/256, and `FormatPrice ∘ ParsePrice` is the
identity on every canonical well-formed W-FFE string — FF in 00–31 and the
eighths character a digit 0–7 with the value 4 written `'+'` (the exact
strings `FormatPrice` produces).  The original claim also admitted the
eighths digit `'4'` spelled literally, which does not round-trip; see the
counterexample. -/
theorem priceRoundTrip_spec (n w f32 f8 : ℕ) (h32 : f32 ≤ 31) (h8 : f8 ≤ 7) :
    ParsePrice (FormatPrice ((n : ℚ) / 256)) = (n : ℚ) / 256
  ∧ FormatPrice (ParsePrice (priceString w f32 f8)) = priceString w f32 f8 := by
  constructor
  · rw [FormatPrice_eval n,
      ParsePrice_priceString (n / 256) (n % 256 / 8) (n % 256 % 8) (by omega) (by omega)]
    rw [show 256 * (n / 256) + 8 * (n % 256 / 8) + n % 256 % 8 = n from by omega]
  · rw [ParsePrice_priceString w f32 f8 h32 h8,
      FormatPrice_eval (256 * w + 8 * f32 + f8)]
    rw [show (256 * w + 8 * f32 + f8) / 256 = w from by omega,
      show (256 * w + 8 * f32 + f8) % 256 / 8 = f32 from by omega,
      show (256 * w + 8 * f32 + f8) % 256 % 8 = f8 from by omega]

/-- Witness for `priceRoundTrip_spec`: the multiple 300/256 (= "1-054+"
territory) and the canonical string "99-25+". -/
theorem priceRoundTrip_spec_witness :
    (25 : ℕ) ≤ 31 ∧ (4 : ℕ) ≤ 7
  ∧ (ParsePrice (FormatPrice (((300 : ℕ) : ℚ) / 256)) = ((300 : ℕ) : ℚ) / 256
    ∧ FormatPrice (ParsePrice (priceString 99 25 4)) = priceString 99 25 4) :=
  ⟨by norm_num, by norm_num, priceRoundTrip_spec 300 99 25 4 (by norm_num) (by norm_num)⟩

/-- Counterexample to C2 as stated: the string "0-004" is well-formed by the
claim's wording (two-digit FF = 00 in range, eighths character the digit
'4'), yet `FormatPrice (ParsePrice "0-004")` is "0-00+", not "0-004" —
`FormatPrice` renders the eighth 4 as `'+'`, so only strings using the `'+'`
spelling round-trip. -/
theorem priceRoundTrip_counterexample :
    ClaimWellFormed "0-004" ∧ FormatPrice (ParsePrice "0-004") ≠ "0-004" := by
  constructor
  · refine ⟨0, 0, '4', by norm_num, Or.inr ⟨4, by norm_num, by decide⟩, ?_⟩
    decide
  · have hparse : ParsePrice "0-004" = ((4 : ℕ) : ℚ) / 256 := by
      rw [show ParsePrice "0-004"
          = stodVal (parseLoop "0-004".data 0 [] [] []).1
            + stodVal (parseLoop "0-004".data 0 [] [] []).2.1 / 32
            + stodVal (parseLoop "0-004".data 0 [] [] []).2.2 / 256 from rfl]
      rw [show parseLoop "0-004".data 0 [] [] [] = (['0'], ['0', '0'], ['4']) from by decide]
      rw [show stodVal ['0'] = ((0 : ℕ) : ℚ) from rfl,
        show stodVal ['0', '0'] = ((0 : ℕ) : ℚ) from rfl,
        show stodVal ['4'] = ((4 : ℕ) : ℚ) from rfl]
      norm_num
    rw [hparse, FormatPrice_eval 4]
    decide

end TradingSystem
